import Mathlib

/-!
Verification of an Aho-Corasick multi-pattern matcher.

The embedding mirrors `TAhoCorasick` from the C++ source:
  * `buildCodeMap` models the 256-entry `CodeMap` array filled in `Reset`;
  * `reset` models trie construction (`Reset`);
  * `suffLinkFuel`/`goFuel` model the mutually recursive lazy resolvers
    `GetLink` and `SwitchStateCode` (fuel makes the general recursion
    total; stability lemmas recover the recursive equations);
  * `hasString`, `hasPrefix`, `searchIn`, `switchState`, `getLink`
    model the query surface.
Sentinel values (`ssize_t` fields holding `-1`) are modelled as `Option`,
except `CodeMap` which keeps the literal `-1 : Int` sentinel since the
claims talk about the raw 256-entry array.
-/

namespace AhoCorasick

/-- Trie node, mirroring `TNode` (the cache fields `Next`, `Go`, `SuffLink`
are represented by the pure functions below; `Parent = -1` and
`IsLeaf = -1` become `none`). -/
structure TNode where
  isLeaf : Option Nat := none
  parentCode : Nat := 0
  parent : Option Nat := none
  depth : Nat := 0
deriving Repr, DecidableEq

instance : Inhabited TNode := ⟨{}⟩

/-- The automaton: code map (256-entry array with `-1` sentinel), number of
distinct codes, node table (`Tree`), and the literal trie edges (the
`Ways[Next + code]` rows, as an association list keyed by (node, code)). -/
structure Trie where
  codeMap : List Int
  codeSize : Nat
  nodes : List TNode
  edges : List ((Nat × Nat) × Nat)
deriving Repr, DecidableEq

/-- `Tree[v]` (out of range gives a default node, never relied upon). -/
def nodeAt (t : Trie) (v : Nat) : TNode := t.nodes.getD v {}

/-- Lookup of the literal trie edge `Ways[Tree[v].Next + code]`. -/
def findEdge : List ((Nat × Nat) × Nat) → Nat → Nat → Option Nat
  | [], _, _ => none
  | (k, w) :: rest, v, c => if k = (v, c) then some w else findEdge rest v c

/-- `CodeMap[c]` (reading out of range yields the sentinel `-1`). -/
def codeOf (cm : List Int) (c : Nat) : Int := cm.getD c (-1)

/-- First loop of `Reset` over one word: assign fresh codes to unseen
symbols. -/
def addSyms (cm : List Int) (sz : Nat) : List Nat → List Int × Nat
  | [] => (cm, sz)
  | c :: rest =>
    if codeOf cm c = -1 then addSyms (cm.set c (sz : Int)) (sz + 1) rest
    else addSyms cm sz rest

/-- First loop of `Reset` over all words. -/
def addAllSyms : List Int × Nat → List (List Nat) → List Int × Nat
  | acc, [] => acc
  | acc, w :: rest => addAllSyms (addSyms acc.1 acc.2 w) rest

/-- The code map and code count built by `Reset`'s first loop. -/
def buildCodeMap (words : List (List Nat)) : List Int × Nat :=
  addAllSyms (List.replicate 256 (-1), 0) words

/-- Mark `Tree[v].IsLeaf = wordIdx`. -/
def setLeaf (t : Trie) (v : Nat) (wordIdx : Nat) : Trie :=
  { t with nodes := t.nodes.set v { nodeAt t v with isLeaf := some wordIdx } }

/-- Second loop of `Reset`, inner walk over one word's symbols: follow the
existing edge or create a fresh node (recording parent, parent code and
`Depth = chPos + 1`). Returns the trie and the landing node. -/
def insertSyms (t : Trie) (cur : Nat) (chPos : Nat) : List Nat → Trie × Nat
  | [] => (t, cur)
  | sym :: rest =>
    let code := (codeOf t.codeMap sym).toNat
    match findEdge t.edges cur code with
    | some nxt => insertSyms t nxt (chPos + 1) rest
    | none =>
      insertSyms
        { t with
            nodes := t.nodes ++
              [{ parent := some cur, parentCode := code, depth := chPos + 1 }],
            edges := t.edges ++ [((cur, code), t.nodes.length)] }
        t.nodes.length (chPos + 1) rest

/-- Insert one word and mark its landing node as a leaf. -/
def insertWord (t : Trie) (wordIdx : Nat) (w : List Nat) : Trie :=
  let r := insertSyms t 0 0 w
  setLeaf r.1 r.2 wordIdx

/-- Second loop of `Reset` over all words (with their indices). -/
def insertAll (t : Trie) (wordIdx : Nat) : List (List Nat) → Trie
  | [] => t
  | w :: rest => insertAll (insertWord t wordIdx w) (wordIdx + 1) rest

/-- `Reset(words)`: build the code map, then insert every word. -/
def reset (words : List (List Nat)) : Trie :=
  let cm := buildCodeMap words
  insertAll { codeMap := cm.1, codeSize := cm.2, nodes := [{}], edges := [] } 0 words

/-- Query cursor, mirroring `TState` (`Leaf = -1` becomes `none`). -/
structure TState where
  idx : Nat := 0
  depth : Nat := 0
  leaf : Option Nat := none
deriving Repr, DecidableEq

/-- `TState()` — the default-constructed root state. -/
def initState : TState := {}

/-- `TState(v, Tree[v].Depth, Tree[v].IsLeaf)` as built by
`SwitchStateCode`'s return. -/
def stateOf (t : Trie) (v : Nat) : TState :=
  ⟨v, (nodeAt t v).depth, (nodeAt t v).isLeaf⟩

mutual

/-- Pure value of `SwitchStateCode(code, v).Idx` (the lazily memoized
`Ways[Go + code]` cell), with fuel bounding the recursion depth. -/
def goFuel (t : Trie) : Nat → Nat → Nat → Nat
  | 0, _, _ => 0
  | fuel + 1, v, code =>
    match findEdge t.edges v code with
    | some w => w
    | none => if v = 0 then 0 else goFuel t fuel (suffLinkFuel t fuel v) code

/-- Pure value of `GetLink(v).Idx` (the lazily memoized `SuffLink` field),
with fuel bounding the recursion depth. -/
def suffLinkFuel (t : Trie) : Nat → Nat → Nat
  | 0, _ => 0
  | fuel + 1, v =>
    if v = 0 ∨ (nodeAt t v).parent = some 0 then 0
    else
      goFuel t fuel (suffLinkFuel t fuel ((nodeAt t v).parent.getD 0))
        ((nodeAt t v).parentCode)

end

/-- The suffix link of node `v` (`Tree[v].SuffLink` once resolved): the fuel
`2 * depth + 1` is always sufficient, as proved below. -/
def suffLink (t : Trie) (v : Nat) : Nat :=
  suffLinkFuel t (2 * (nodeAt t v).depth + 1) v

/-- The resolved transition (`goto`) function of node `v` on `code`. -/
def goN (t : Trie) (v code : Nat) : Nat :=
  goFuel t (2 * (nodeAt t v).depth + 2) v code

/-- `SwitchStateCode(code, v)`: move via the resolved transition and return
the full state of the target node. -/
def switchStateCode (t : Trie) (code : Nat) (v : TState) : TState :=
  stateOf t (goN t v.idx code)

/-- `SwitchState(c, v)`: translate the raw symbol through `CodeMap`,
resetting to the default root state when unmapped. -/
def switchState (t : Trie) (c : Nat) (v : TState) : TState :=
  let code := codeOf t.codeMap c
  if code = -1 then initState else switchStateCode t code.toNat v

/-- `GetLink(s)`: the state built from the suffix-link target — note the
source passes the *queried* node's depth together with the target's index
and leaf. -/
def getLink (t : Trie) (s : TState) : TState :=
  ⟨suffLink t s.idx, (nodeAt t s.idx).depth, (nodeAt t (suffLink t s.idx)).isLeaf⟩

/-- `HasString`'s loop: every step must be a literal `+1`-depth extension
(`IsNextTo`), and the final state must be a leaf. -/
def hasStringGo (t : Trie) (st : TState) : List Nat → Bool
  | [] => st.leaf.isSome
  | c :: rest =>
    let nst := switchState t c st
    if nst.depth = st.depth + 1 then hasStringGo t nst rest else false

/-- `HasString(s)`. -/
def hasString (t : Trie) (s : List Nat) : Bool := hasStringGo t initState s

/-- `HasPrefix`'s loop: like `HasString` but with no leaf requirement. -/
def hasPrefixGo (t : Trie) (st : TState) : List Nat → Bool
  | [] => true
  | c :: rest =>
    let nst := switchState t c st
    if nst.depth = st.depth + 1 then hasPrefixGo t nst rest else false

/-- `HasPrefix(s)`. -/
def hasPrefix (t : Trie) (s : List Nat) : Bool := hasPrefixGo t initState s

/-- `SearchIn`'s loop: walk the full automaton, appending
`(i + 1, leaf index)` whenever the current state is a leaf. -/
def searchGo (t : Trie) (st : TState) (i : Nat) (res : List (Nat × Nat)) :
    List Nat → List (Nat × Nat)
  | [] => res
  | c :: rest =>
    let nst := switchState t c st
    match nst.leaf with
    | some k => searchGo t nst (i + 1) (res ++ [(i + 1, k)]) rest
    | none => searchGo t nst (i + 1) res rest

/-- `SearchIn(s, res)`: appends all matches of `s` to `res`. -/
def searchIn (t : Trie) (s : List Nat) (res : List (Nat × Nat)) :
    List (Nat × Nat) :=
  searchGo t initState 0 res s

/-- Folding `SwitchState` over a text from a given state. -/
def runFrom (t : Trie) (st : TState) : List Nat → TState
  | [] => st
  | c :: rest => runFrom t (switchState t c st) rest

/-- The automaton state after scanning `u` from the initial state. -/
def runState (t : Trie) (u : List Nat) : TState := runFrom t initState u

/-- The string of codes spelled by the path from the root to node `v`
(fuel-indexed; parents have smaller index, so fuel `v` suffices). -/
def strFuel (t : Trie) : Nat → Nat → List Nat
  | 0, _ => []
  | f + 1, v =>
    if v = 0 then []
    else strFuel t f ((nodeAt t v).parent.getD 0) ++ [(nodeAt t v).parentCode]

/-- The code string that node `v` represents. -/
def str (t : Trie) (v : Nat) : List Nat := strFuel t v v

/-- Walking the literal trie edges from `v` along a code string. -/
def trieWalk (t : Trie) (v : Nat) : List Nat → Option Nat
  | [] => some v
  | c :: rest =>
    match findEdge t.edges v c with
    | some w => trieWalk t w rest
    | none => none

/-- A code string is "present in the trie" when some node spells it. -/
def isTrieStr (t : Trie) (s : List Nat) : Prop :=
  ∃ v, v < t.nodes.length ∧ str t v = s

/-- Every symbol of `s` has a code. -/
def allMapped (cm : List Int) (s : List Nat) : Prop :=
  ∀ c ∈ s, codeOf cm c ≠ -1

/-- The code string of a raw symbol string. -/
def encW (cm : List Int) (w : List Nat) : List Nat :=
  w.map fun c => (codeOf cm c).toNat

/-- All pattern symbols are bytes (the C++ patterns are `char` data read
into a 256-entry table). -/
def SymsOk (words : List (List Nat)) : Prop :=
  ∀ w ∈ words, ∀ c ∈ w, c < 256

/-- Occurrence of `pat` as a substring of `text` ending at 1-based
position `pos`. -/
def occursEndingAt (pat text : List Nat) (pos : Nat) : Prop :=
  pos ≤ text.length ∧ pat <:+ text.take pos

instance (words : List (List Nat)) : Decidable (SymsOk words) :=
  inferInstanceAs (Decidable (∀ w ∈ words, ∀ c ∈ w, c < 256))

instance (pat text : List Nat) (pos : Nat) :
    Decidable (occursEndingAt pat text pos) :=
  inferInstanceAs (Decidable (pos ≤ text.length ∧ pat <:+ text.take pos))

/-- Modelled from the spec: `u` is the longest proper suffix of `s` that is
itself a prefix present in the trie (the spec's characterisation of the
failure link; to be compared with the code's `suffLink`). -/
def isLongestProperTrieSuffix (t : Trie) (s u : List Nat) : Prop :=
  u <:+ s ∧ u ≠ s ∧ isTrieStr t u ∧
    ∀ u', u' <:+ s → u' ≠ s → isTrieStr t u' → u' <:+ u

/-- Invariant of the code map during `Reset`'s first loop. -/
structure CMInv (cm : List Int) (sz : Nat) : Prop where
  len : cm.length = 256
  lb : ∀ c, -1 ≤ codeOf cm c
  ub : ∀ c, codeOf cm c < (sz : Int)
  inj : ∀ c1 c2, codeOf cm c1 ≠ -1 → codeOf cm c1 = codeOf cm c2 → c1 = c2

/-- Structural well-formedness of the node table and edge list, as
established by `Reset`. -/
structure WF (t : Trie) : Prop where
  root_lt : 0 < t.nodes.length
  root_depth : (nodeAt t 0).depth = 0
  root_parent : (nodeAt t 0).parent = none
  parent_spec : ∀ v, 0 < v → v < t.nodes.length →
    ∃ p, (nodeAt t v).parent = some p ∧ p < v ∧
      (nodeAt t v).depth = (nodeAt t p).depth + 1 ∧
      findEdge t.edges p (nodeAt t v).parentCode = some v
  edge_spec : ∀ v c w, findEdge t.edges v c = some w →
    v < t.nodes.length ∧ w < t.nodes.length ∧ 0 < w ∧
    (nodeAt t w).parent = some v ∧ (nodeAt t w).parentCode = c

/-- `t'` extends `t`: construction only appends nodes and edges, keeps the
structural fields of existing nodes, and never erases a leaf mark. -/
structure Ext (t t' : Trie) : Prop where
  cm : t'.codeMap = t.codeMap
  cs : t'.codeSize = t.codeSize
  len_le : t.nodes.length ≤ t'.nodes.length
  node_struct : ∀ v, v < t.nodes.length →
    (nodeAt t' v).parent = (nodeAt t v).parent ∧
    (nodeAt t' v).parentCode = (nodeAt t v).parentCode ∧
    (nodeAt t' v).depth = (nodeAt t v).depth
  edge_mono : ∀ v c w, findEdge t.edges v c = some w →
    findEdge t'.edges v c = some w
  leaf_mono : ∀ v, v < t.nodes.length → (nodeAt t v).isLeaf.isSome →
    (nodeAt t' v).isLeaf.isSome

/-- The full invariant of the automaton built by `Reset(words)`. -/
structure Good (words : List (List Nat)) (t : Trie) : Prop where
  wf : WF t
  cm : t.codeMap = (buildCodeMap words).1
  leaf_sound : ∀ v k, v < t.nodes.length → (nodeAt t v).isLeaf = some k →
    k < words.length ∧ str t v = encW (buildCodeMap words).1 (words.getD k [])
  leaf_complete : ∀ k, k < words.length →
    ∃ v, v < t.nodes.length ∧
      str t v = encW (buildCodeMap words).1 (words.getD k []) ∧
      (nodeAt t v).isLeaf.isSome

/-! ### Generic list access lemmas -/

theorem getD_append_left {α : Type} (l1 l2 : List α) (n : Nat) (d : α)
    (h : n < l1.length) : (l1 ++ l2).getD n d = l1.getD n d := by
  induction l1 generalizing n with
  | nil => simp at h
  | cons x xs ih =>
    cases n with
    | zero => rfl
    | succ m => simpa using ih m (by simpa using h)

theorem getD_append_self {α : Type} (l1 l2 : List α) (x : α) (d : α) :
    (l1 ++ x :: l2).getD l1.length d = x := by
  induction l1 with
  | nil => rfl
  | cons y ys ih => simpa using ih

theorem getD_eq_default {α : Type} (l : List α) (n : Nat) (d : α)
    (h : l.length ≤ n) : l.getD n d = d := by
  induction l generalizing n with
  | nil => cases n <;> rfl
  | cons x xs ih =>
    cases n with
    | zero => simp at h
    | succ m => simpa using ih m (by simpa using h)

theorem getD_set_self {α : Type} (l : List α) (n : Nat) (x d : α)
    (h : n < l.length) : (l.set n x).getD n d = x := by
  induction l generalizing n with
  | nil => simp at h
  | cons y ys ih =>
    cases n with
    | zero => rfl
    | succ m => simpa using ih m (by simpa using h)

theorem getD_set_ne {α : Type} (l : List α) (n m : Nat) (x d : α)
    (h : n ≠ m) : (l.set n x).getD m d = l.getD m d := by
  induction l generalizing n m with
  | nil => simp
  | cons y ys ih =>
    cases n with
    | zero => cases m with
      | zero => exact absurd rfl h
      | succ k => rfl
    | succ n' =>
      cases m with
      | zero => rfl
      | succ k => simpa using ih n' k (by omega)

theorem getD_replicate_val {α : Type} (k n : Nat) (d' d : α) :
    (List.replicate k d').getD n d = if n < k then d' else d := by
  induction k generalizing n with
  | zero => simp [getD_eq_default]
  | succ m ih =>
    cases n with
    | zero => simp [List.replicate]
    | succ n' => simpa [List.replicate] using ih n'

/-! ### Code-map lemmas -/

theorem cmInv_init : CMInv (List.replicate 256 (-1)) 0 := by
  refine ⟨List.length_replicate 256 (-1), ?_, ?_, ?_⟩
  · intro c; unfold codeOf; rw [getD_replicate_val]; split <;> simp
  · intro c; unfold codeOf; rw [getD_replicate_val]; split <;> simp
  · intro c1 c2 h1 _
    unfold codeOf at h1; rw [getD_replicate_val] at h1
    revert h1; split <;> simp

theorem codeOf_oob (cm : List Int) (c : Nat) (hlen : cm.length = 256)
    (hc : 256 ≤ c) : codeOf cm c = -1 := by
  unfold codeOf; exact getD_eq_default _ _ _ (by omega)

theorem codeOf_set_self (cm : List Int) (c : Nat) (x : Int)
    (h : c < cm.length) : codeOf (cm.set c x) c = x := by
  unfold codeOf; exact getD_set_self _ _ _ _ h

theorem codeOf_set_ne (cm : List Int) (c c' : Nat) (x : Int) (h : c ≠ c') :
    codeOf (cm.set c x) c' = codeOf cm c' := by
  unfold codeOf; exact getD_set_ne _ _ _ _ _ h

theorem set_oob {α : Type} (l : List α) (n : Nat) (x : α)
    (h : l.length ≤ n) : l.set n x = l := by
  induction l generalizing n with
  | nil => rfl
  | cons y ys ih =>
    cases n with
    | zero => simp at h
    | succ m => simpa using ih m (by simpa using h)

theorem cmInv_addSyms (cm : List Int) (sz : Nat) (w : List Nat)
    (h : CMInv cm sz) : CMInv (addSyms cm sz w).1 (addSyms cm sz w).2 := by
  induction w generalizing cm sz with
  | nil => exact h
  | cons c rest ih =>
    have hlen := h.len
    by_cases hc : codeOf cm c = -1
    · rw [addSyms, if_pos hc]
      by_cases hlt : c < 256
      · refine ih _ _ ⟨by simpa using hlen, ?_, ?_, ?_⟩
        · intro c'
          rcases eq_or_ne c c' with rfl | hne
          · rw [codeOf_set_self _ _ _ (by omega)]; omega
          · rw [codeOf_set_ne _ _ _ _ hne]; exact h.lb c'
        · intro c'
          rcases eq_or_ne c c' with rfl | hne
          · rw [codeOf_set_self _ _ _ (by omega)]; omega
          · rw [codeOf_set_ne _ _ _ _ hne]
            have := h.ub c'; omega
        · intro c1 c2 h1 h12
          rcases eq_or_ne c c1 with rfl | hne1
          · rcases eq_or_ne c c2 with rfl | hne2
            · rfl
            · rw [codeOf_set_self _ _ _ (by omega),
                codeOf_set_ne _ _ _ _ hne2] at h12
              have := h.ub c2; omega
          · rw [codeOf_set_ne _ _ _ _ hne1] at h1 h12
            rcases eq_or_ne c c2 with rfl | hne2
            · rw [codeOf_set_self _ _ _ (by omega)] at h12
              have := h.ub c1; omega
            · rw [codeOf_set_ne _ _ _ _ hne2] at h12
              exact h.inj c1 c2 h1 h12
      · rw [set_oob _ _ _ (by omega)]
        refine ih _ _ ⟨hlen, h.lb, ?_, h.inj⟩
        intro c'
        have := h.ub c'; omega
    · rw [addSyms, if_neg hc]; exact ih _ _ h

theorem cmInv_addAllSyms (cm : List Int) (sz : Nat) (ws : List (List Nat))
    (h : CMInv cm sz) :
    CMInv (addAllSyms (cm, sz) ws).1 (addAllSyms (cm, sz) ws).2 := by
  induction ws generalizing cm sz with
  | nil => exact h
  | cons w rest ih => exact ih _ _ (cmInv_addSyms cm sz w h)

theorem cmInv_buildCodeMap (words : List (List Nat)) :
    CMInv (buildCodeMap words).1 (buildCodeMap words).2 :=
  cmInv_addAllSyms _ _ _ cmInv_init

/-- Once a symbol is mapped, its code never changes. -/
theorem codeOf_addSyms_mapped (cm : List Int) (sz : Nat) (w : List Nat)
    (c : Nat) (h : codeOf cm c ≠ -1) :
    codeOf (addSyms cm sz w).1 c = codeOf cm c := by
  induction w generalizing cm sz with
  | nil => rfl
  | cons x rest ih =>
    by_cases hx : codeOf cm x = -1
    · rw [addSyms, if_pos hx]
      have hne : x ≠ c := by rintro rfl; exact h hx
      rw [ih _ _ (by rw [codeOf_set_ne _ _ _ _ hne]; exact h),
        codeOf_set_ne _ _ _ _ hne]
    · rw [addSyms, if_neg hx]; exact ih _ _ h

theorem codeOf_addAllSyms_mapped (acc : List Int × Nat) (ws : List (List Nat))
    (c : Nat) (h : codeOf acc.1 c ≠ -1) :
    codeOf (addAllSyms acc ws).1 c = codeOf acc.1 c := by
  induction ws generalizing acc with
  | nil => rfl
  | cons w rest ih =>
    rw [addAllSyms,
      ih _ (by rw [codeOf_addSyms_mapped _ _ _ _ h]; exact h),
      codeOf_addSyms_mapped _ _ _ _ h]

/-- Every symbol of `w` below 256 is mapped after `addSyms` on `w`. -/
theorem codeOf_addSyms_mem (cm : List Int) (sz : Nat) (w : List Nat)
    (c : Nat) (hlen : cm.length = 256) (hc : c ∈ w) (hlt : c < 256) :
    codeOf (addSyms cm sz w).1 c ≠ -1 := by
  induction w generalizing cm sz with
  | nil => simp at hc
  | cons x rest ih =>
    by_cases hx : codeOf cm x = -1
    · rw [addSyms, if_pos hx]
      rcases List.mem_cons.1 hc with rfl | hmem
      · rw [codeOf_addSyms_mapped _ _ _ _
          (by rw [codeOf_set_self _ _ _ (by omega)]; omega)]
        rw [codeOf_set_self _ _ _ (by omega)]; omega
      · exact ih _ _ (by simpa using hlen) hmem
    · rw [addSyms, if_neg hx]
      rcases List.mem_cons.1 hc with rfl | hmem
      · rw [codeOf_addSyms_mapped _ _ _ _ hx]; exact hx
      · exact ih _ _ hlen hmem

theorem addSyms_length (cm : List Int) (sz : Nat) (w : List Nat) :
    (addSyms cm sz w).1.length = cm.length := by
  induction w generalizing cm sz with
  | nil => rfl
  | cons x rest ih =>
    by_cases hx : codeOf cm x = -1
    · rw [addSyms, if_pos hx, ih]; simp
    · rw [addSyms, if_neg hx, ih]

theorem addAllSyms_length (acc : List Int × Nat) (ws : List (List Nat)) :
    (addAllSyms acc ws).1.length = acc.1.length := by
  induction ws generalizing acc with
  | nil => rfl
  | cons w rest ih => rw [addAllSyms, ih, addSyms_length]

theorem buildCodeMap_length (words : List (List Nat)) :
    (buildCodeMap words).1.length = 256 := by
  rw [buildCodeMap, addAllSyms_length]; exact List.length_replicate 256 (-1)

theorem codeOf_addAllSyms_mem (acc : List Int × Nat) (ws : List (List Nat))
    (w : List Nat) (c : Nat) (hlen : acc.1.length = 256) (hw : w ∈ ws)
    (hc : c ∈ w) (hlt : c < 256) : codeOf (addAllSyms acc ws).1 c ≠ -1 := by
  induction ws generalizing acc with
  | nil => simp at hw
  | cons w0 rest ih =>
    rcases List.mem_cons.1 hw with rfl | hmem
    · rw [addAllSyms]
      have h1 : codeOf (addSyms acc.1 acc.2 w).1 c ≠ -1 :=
        codeOf_addSyms_mem _ _ _ _ hlen hc hlt
      rw [codeOf_addAllSyms_mapped _ _ _ h1]; exact h1
    · exact ih _ (by rw [addSyms_length]; exact hlen) hmem

/-- Every symbol below 256 occurring in some word is mapped by the built
code map. -/
theorem codeOf_buildCodeMap_mem (words : List (List Nat)) (w : List Nat)
    (c : Nat) (hw : w ∈ words) (hc : c ∈ w) (hlt : c < 256) :
    codeOf (buildCodeMap words).1 c ≠ -1 :=
  codeOf_addAllSyms_mem _ _ _ _ (List.length_replicate 256 (-1)) hw hc hlt

theorem codeOf_addSyms_not_mem (cm : List Int) (sz : Nat) (w : List Nat)
    (c : Nat) (h : c ∉ w) : codeOf (addSyms cm sz w).1 c = codeOf cm c := by
  induction w generalizing cm sz with
  | nil => rfl
  | cons x rest ih =>
    have hxc : x ≠ c := fun he => h (he ▸ List.mem_cons_self x rest)
    have hcr : c ∉ rest := fun hm => h (List.mem_cons_of_mem x hm)
    by_cases hx : codeOf cm x = -1
    · rw [addSyms, if_pos hx, ih _ _ hcr, codeOf_set_ne _ _ _ _ hxc]
    · rw [addSyms, if_neg hx]; exact ih _ _ hcr

theorem codeOf_addAllSyms_not_mem (acc : List Int × Nat)
    (ws : List (List Nat)) (c : Nat) (h : ∀ w ∈ ws, c ∉ w) :
    codeOf (addAllSyms acc ws).1 c = codeOf acc.1 c := by
  induction ws generalizing acc with
  | nil => rfl
  | cons w rest ih =>
    rw [addAllSyms, ih _ (fun w' hw' => h w' (List.mem_cons_of_mem w hw')),
      codeOf_addSyms_not_mem _ _ _ _ (h w (List.mem_cons_self w rest))]

/-- A symbol occurring in no word is unmapped. -/
theorem codeOf_buildCodeMap_not_mem (words : List (List Nat)) (c : Nat)
    (h : ∀ w ∈ words, c ∉ w) : codeOf (buildCodeMap words).1 c = -1 := by
  rw [buildCodeMap, codeOf_addAllSyms_not_mem _ _ _ h]
  unfold codeOf; rw [getD_replicate_val]; split <;> rfl

/-! ### Edge list and node table lemmas -/

theorem findEdge_append (e1 e2 : List ((Nat × Nat) × Nat)) (v c : Nat) :
    findEdge (e1 ++ e2) v c =
      match findEdge e1 v c with
      | some w => some w
      | none => findEdge e2 v c := by
  induction e1 with
  | nil => rfl
  | cons kv rest ih =>
    obtain ⟨k, w⟩ := kv
    by_cases hk : k = (v, c)
    · simp [findEdge, hk]
    · simp only [List.cons_append, findEdge, if_neg hk]; exact ih

theorem findEdge_append_of_some (e1 e2 : List ((Nat × Nat) × Nat))
    (v c w : Nat) (h : findEdge e1 v c = some w) :
    findEdge (e1 ++ e2) v c = some w := by
  rw [findEdge_append, h]

theorem findEdge_append_of_none (e1 e2 : List ((Nat × Nat) × Nat))
    (v c : Nat) (h : findEdge e1 v c = none) :
    findEdge (e1 ++ e2) v c = findEdge e2 v c := by
  rw [findEdge_append, h]

theorem findEdge_singleton (v0 c0 w0 v c : Nat) :
    findEdge [((v0, c0), w0)] v c =
      if (v0, c0) = (v, c) then some w0 else none := rfl

theorem nodeAt_append_lt (t : Trie) (ns : List TNode) (v : Nat)
    (h : v < t.nodes.length) :
    nodeAt { t with nodes := t.nodes ++ ns } v = nodeAt t v := by
  unfold nodeAt; exact getD_append_left _ _ _ _ h

theorem nodeAt_append_self (t : Trie) (n : TNode) :
    nodeAt { t with nodes := t.nodes ++ [n] } t.nodes.length = n := by
  unfold nodeAt; exact getD_append_self _ _ _ _

theorem nodeAt_oob (t : Trie) (v : Nat) (h : t.nodes.length ≤ v) :
    nodeAt t v = {} := by
  unfold nodeAt; exact getD_eq_default _ _ _ h

theorem nodeAt_set_self (t : Trie) (v : Nat) (n : TNode)
    (h : v < t.nodes.length) :
    nodeAt { t with nodes := t.nodes.set v n } v = n := by
  unfold nodeAt; exact getD_set_self _ _ _ _ h

theorem nodeAt_set_ne (t : Trie) (v u : Nat) (n : TNode) (h : v ≠ u) :
    nodeAt { t with nodes := t.nodes.set v n } u = nodeAt t u := by
  unfold nodeAt; exact getD_set_ne _ _ _ _ _ h

/-! ### Derived well-formedness facts -/

theorem wf_depth_le (t : Trie) (hwf : WF t) :
    ∀ v, v < t.nodes.length → (nodeAt t v).depth ≤ v := by
  intro v
  induction v using Nat.strong_induction_on with
  | _ v ih =>
    intro hv
    rcases Nat.eq_zero_or_pos v with rfl | hpos
    · rw [hwf.root_depth]
    · obtain ⟨p, _, hpv, hd, _⟩ := hwf.parent_spec v hpos hv
      have := ih p hpv (lt_trans hpv hv)
      omega

theorem wf_depth_pos (t : Trie) (hwf : WF t) (v : Nat) (h0 : 0 < v)
    (hv : v < t.nodes.length) : 0 < (nodeAt t v).depth := by
  obtain ⟨p, _, _, hd, _⟩ := hwf.parent_spec v h0 hv
  omega

theorem wf_eq_root_of_depth_zero (t : Trie) (hwf : WF t) (v : Nat)
    (hv : v < t.nodes.length) (hd : (nodeAt t v).depth = 0) : v = 0 := by
  by_contra h0
  have := wf_depth_pos t hwf v (Nat.pos_of_ne_zero h0) hv
  omega

/-! ### Lemmas about node strings -/

theorem strFuel_stable (t : Trie) (hwf : WF t) :
    ∀ v f, v < t.nodes.length → v ≤ f → strFuel t f v = str t v := by
  intro v
  induction v using Nat.strong_induction_on with
  | _ v ih =>
    intro f hv hf
    rcases Nat.eq_zero_or_pos v with rfl | hpos
    · cases f with
      | zero => rfl
      | succ f' => rw [str]; rfl
    · obtain ⟨p, hp, hpv, _, _⟩ := hwf.parent_spec v hpos hv
      obtain ⟨f', rfl⟩ : ∃ f', f = f' + 1 := ⟨f - 1, by omega⟩
      obtain ⟨v', rfl⟩ : ∃ v', v = v' + 1 := ⟨v - 1, by omega⟩
      rw [strFuel, if_neg (Nat.succ_ne_zero v'), str, strFuel,
        if_neg (Nat.succ_ne_zero v'), hp]
      have h1 : strFuel t f' p = str t p :=
        ih p hpv f' (lt_trans hpv hv) (by omega)
      have h2 : strFuel t v' p = str t p :=
        ih p hpv v' (lt_trans hpv hv) (by omega)
      rw [Option.getD_some, h1, h2]

theorem str_zero (t : Trie) : str t 0 = [] := rfl

theorem str_eq_parent (t : Trie) (hwf : WF t) (v p : Nat) (hpos : 0 < v)
    (hv : v < t.nodes.length) (hp : (nodeAt t v).parent = some p) :
    str t v = str t p ++ [(nodeAt t v).parentCode] := by
  obtain ⟨p', hp', hpv, _, _⟩ := hwf.parent_spec v hpos hv
  rw [hp] at hp'; injection hp' with hp'; subst hp'
  obtain ⟨v', rfl⟩ : ∃ v', v = v' + 1 := ⟨v - 1, by omega⟩
  rw [str, strFuel, if_neg (Nat.succ_ne_zero v'), hp, Option.getD_some,
    strFuel_stable t hwf p v' (lt_trans hpv hv) (by omega)]

theorem str_length (t : Trie) (hwf : WF t) :
    ∀ v, v < t.nodes.length → (str t v).length = (nodeAt t v).depth := by
  intro v
  induction v using Nat.strong_induction_on with
  | _ v ih =>
    intro hv
    rcases Nat.eq_zero_or_pos v with rfl | hpos
    · rw [str_zero, hwf.root_depth]; rfl
    · obtain ⟨p, hp, hpv, hd, _⟩ := hwf.parent_spec v hpos hv
      rw [str_eq_parent t hwf v p hpos hv hp, hd]
      simp [ih p hpv (lt_trans hpv hv)]

theorem str_ne_nil (t : Trie) (hwf : WF t) (v : Nat) (hpos : 0 < v)
    (hv : v < t.nodes.length) : str t v ≠ [] := by
  intro h
  have hl := str_length t hwf v hv
  rw [h] at hl
  have := wf_depth_pos t hwf v hpos hv
  simp at hl; omega

theorem str_edge (t : Trie) (hwf : WF t) (v c w : Nat)
    (h : findEdge t.edges v c = some w) : str t w = str t v ++ [c] := by
  obtain ⟨hv, hw, hw0, hpar, hpc⟩ := hwf.edge_spec v c w h
  rw [str_eq_parent t hwf w v hw0 hw hpar, hpc]

theorem str_inj (t : Trie) (hwf : WF t) :
    ∀ v w, v < t.nodes.length → w < t.nodes.length → str t v = str t w →
      v = w := by
  intro v
  induction v using Nat.strong_induction_on with
  | _ v ih =>
    intro w hv hw heq
    rcases Nat.eq_zero_or_pos v with rfl | hvpos
    · rcases Nat.eq_zero_or_pos w with rfl | hwpos
      · rfl
      · exact absurd (str_zero t ▸ heq.symm) (str_ne_nil t hwf w hwpos hw)
    · rcases Nat.eq_zero_or_pos w with rfl | hwpos
      · exact absurd (str_zero t ▸ heq) (str_ne_nil t hwf v hvpos hv)
      · obtain ⟨pv, hpv, hpvlt, _, hev⟩ := hwf.parent_spec v hvpos hv
        obtain ⟨pw, hpw, hpwlt, _, hew⟩ := hwf.parent_spec w hwpos hw
        rw [str_eq_parent t hwf v pv hvpos hv hpv,
          str_eq_parent t hwf w pw hwpos hw hpw] at heq
        obtain ⟨h1, h2⟩ := List.append_inj' heq (by rfl)
        have hpc : (nodeAt t v).parentCode = (nodeAt t w).parentCode := by
          simpa using h2
        have : pv = pw :=
          ih pv hpvlt pw (lt_trans hpvlt hv) (lt_trans hpwlt hw) h1
        subst this
        rw [hpc] at hev
        rw [hev] at hew
        injection hew

/-! ### Extension lemmas -/

theorem ext_refl (t : Trie) : Ext t t :=
  ⟨rfl, rfl, le_refl _, fun _ _ => ⟨rfl, rfl, rfl⟩, fun _ _ _ h => h,
    fun _ _ h => h⟩

theorem ext_trans {t t' t'' : Trie} (h1 : Ext t t') (h2 : Ext t' t'') :
    Ext t t'' := by
  refine ⟨h2.cm.trans h1.cm, h2.cs.trans h1.cs, le_trans h1.len_le h2.len_le,
    ?_, ?_, ?_⟩
  · intro v hv
    obtain ⟨a1, b1, c1⟩ := h1.node_struct v hv
    obtain ⟨a2, b2, c2⟩ := h2.node_struct v (lt_of_lt_of_le hv h1.len_le)
    exact ⟨a2.trans a1, b2.trans b1, c2.trans c1⟩
  · intro v c w h
    exact h2.edge_mono v c w (h1.edge_mono v c w h)
  · intro v hv h
    exact h2.leaf_mono v (lt_of_lt_of_le hv h1.len_le) (h1.leaf_mono v hv h)

theorem ext_strFuel (t t' : Trie) (hwf : WF t) (hext : Ext t t') :
    ∀ f v, v < t.nodes.length → strFuel t' f v = strFuel t f v := by
  intro f
  induction f with
  | zero => intro v _; rfl
  | succ f' ih =>
    intro v hv
    rcases Nat.eq_zero_or_pos v with rfl | hpos
    · rfl
    · obtain ⟨p, hp, hpv, _, _⟩ := hwf.parent_spec v hpos hv
      obtain ⟨hpar, hpc, _⟩ := hext.node_struct v hv
      rw [strFuel, strFuel, if_neg (Nat.pos_iff_ne_zero.1 hpos),
        if_neg (Nat.pos_iff_ne_zero.1 hpos), hpar, hpc, hp, Option.getD_some,
        ih p (lt_trans hpv hv)]

theorem ext_str (t t' : Trie) (hwf : WF t) (hext : Ext t t') (v : Nat)
    (hv : v < t.nodes.length) : str t' v = str t v :=
  ext_strFuel t t' hwf hext v v hv

/-! ### `setLeaf` lemmas -/

theorem setLeaf_codeMap (t : Trie) (v k : Nat) :
    (setLeaf t v k).codeMap = t.codeMap := rfl

theorem setLeaf_edges (t : Trie) (v k : Nat) :
    (setLeaf t v k).edges = t.edges := rfl

theorem setLeaf_length (t : Trie) (v k : Nat) :
    (setLeaf t v k).nodes.length = t.nodes.length := by
  unfold setLeaf; simp

theorem nodeAt_setLeaf_self (t : Trie) (v k : Nat) (h : v < t.nodes.length) :
    nodeAt (setLeaf t v k) v = { nodeAt t v with isLeaf := some k } := by
  unfold setLeaf nodeAt
  exact getD_set_self _ _ _ _ h

theorem nodeAt_setLeaf_ne (t : Trie) (v u k : Nat) (h : v ≠ u) :
    nodeAt (setLeaf t v k) u = nodeAt t u := by
  unfold setLeaf nodeAt
  exact getD_set_ne _ _ _ _ _ h

theorem nodeAt_setLeaf_struct (t : Trie) (v u k : Nat) :
    (nodeAt (setLeaf t v k) u).parent = (nodeAt t u).parent ∧
    (nodeAt (setLeaf t v k) u).parentCode = (nodeAt t u).parentCode ∧
    (nodeAt (setLeaf t v k) u).depth = (nodeAt t u).depth := by
  rcases eq_or_ne v u with rfl | hne
  · by_cases hv : v < t.nodes.length
    · rw [nodeAt_setLeaf_self t v k hv]; exact ⟨rfl, rfl, rfl⟩
    · unfold setLeaf
      rw [set_oob _ _ _ (by omega)]
      exact ⟨rfl, rfl, rfl⟩
  · rw [nodeAt_setLeaf_ne t v u k hne]; exact ⟨rfl, rfl, rfl⟩

theorem wf_setLeaf (t : Trie) (v k : Nat) (hwf : WF t) : WF (setLeaf t v k) := by
  refine ⟨by rw [setLeaf_length]; exact hwf.root_lt, ?_, ?_, ?_, ?_⟩
  · rw [(nodeAt_setLeaf_struct t v 0 k).2.2]; exact hwf.root_depth
  · rw [(nodeAt_setLeaf_struct t v 0 k).1]; exact hwf.root_parent
  · intro u hu hulen
    rw [setLeaf_length] at hulen
    obtain ⟨p, hp, hpu, hd, he⟩ := hwf.parent_spec u hu hulen
    refine ⟨p, ?_, hpu, ?_, ?_⟩
    · rw [(nodeAt_setLeaf_struct t v u k).1]; exact hp
    · rw [(nodeAt_setLeaf_struct t v u k).2.2,
        (nodeAt_setLeaf_struct t v p k).2.2]; exact hd
    · rw [setLeaf_edges, (nodeAt_setLeaf_struct t v u k).2.1]; exact he
  · intro u c w h
    rw [setLeaf_edges] at h
    obtain ⟨h1, h2, h3, h4, h5⟩ := hwf.edge_spec u c w h
    rw [setLeaf_length]
    exact ⟨h1, h2, h3,
      ((nodeAt_setLeaf_struct t v w k).1).trans h4,
      ((nodeAt_setLeaf_struct t v w k).2.1).trans h5⟩

theorem ext_setLeaf (t : Trie) (v k : Nat) (hv : v < t.nodes.length) :
    Ext t (setLeaf t v k) := by
  refine ⟨rfl, rfl, by rw [setLeaf_length], ?_, ?_, ?_⟩
  · intro u _; exact nodeAt_setLeaf_struct t v u k
  · intro u c w h; rw [setLeaf_edges]; exact h
  · intro u hu h
    rcases eq_or_ne v u with rfl | hne
    · rw [nodeAt_setLeaf_self t v k hv]; rfl
    · rw [nodeAt_setLeaf_ne t v u k hne]; exact h

/-! ### The single node-creating step of `insertSyms` -/

theorem insert_step_spec (t t' : Trie) (cur code chPos : Nat)
    (ht' : t' = { t with
        nodes := t.nodes ++
          [{ parent := some cur, parentCode := code, depth := chPos + 1 }],
        edges := t.edges ++ [((cur, code), t.nodes.length)] })
    (hwf : WF t) (hcur : cur < t.nodes.length)
    (hd : (nodeAt t cur).depth = chPos)
    (hnone : findEdge t.edges cur code = none) :
    WF t' ∧ Ext t t' ∧
    nodeAt t' t.nodes.length =
      { parent := some cur, parentCode := code, depth := chPos + 1 } ∧
    t'.nodes.length = t.nodes.length + 1 ∧
    (∀ v, v < t.nodes.length → nodeAt t' v = nodeAt t v) := by
  have hcm : t'.codeMap = t.codeMap := by rw [ht']
  have hcs : t'.codeSize = t.codeSize := by rw [ht']
  have hlen : t'.nodes.length = t.nodes.length + 1 := by rw [ht']; simp
  have hat : ∀ v, v < t.nodes.length → nodeAt t' v = nodeAt t v := by
    intro v hv
    unfold nodeAt; rw [ht']
    exact getD_append_left _ _ _ _ hv
  have hnew : nodeAt t' t.nodes.length =
      { parent := some cur, parentCode := code, depth := chPos + 1 } := by
    unfold nodeAt; rw [ht']
    exact getD_append_self _ _ _ _
  have hedge : ∀ v c', findEdge t'.edges v c' =
      match findEdge t.edges v c' with
      | some w => some w
      | none => if (cur, code) = (v, c') then some t.nodes.length else none := by
    intro v c'
    rw [ht']
    show findEdge (t.edges ++ [((cur, code), t.nodes.length)]) v c' = _
    rw [findEdge_append]
    rcases h : findEdge t.edges v c' with _ | w
    · exact findEdge_singleton _ _ _ _ _
    · rfl
  have hwf' : WF t' := by
    refine ⟨by omega, ?_, ?_, ?_, ?_⟩
    · rw [hat 0 hwf.root_lt]; exact hwf.root_depth
    · rw [hat 0 hwf.root_lt]; exact hwf.root_parent
    · intro v hv hvlen
      rw [hlen] at hvlen
      rcases Nat.lt_or_ge v t.nodes.length with hvt | hvt
      · obtain ⟨p, hp, hpv, hdp, hep⟩ := hwf.parent_spec v hv hvt
        refine ⟨p, ?_, hpv, ?_, ?_⟩
        · rw [hat v hvt]; exact hp
        · rw [hat v hvt, hat p (lt_trans hpv hvt)]; exact hdp
        · rw [hat v hvt, hedge, hep]
      · have hveq : v = t.nodes.length := by omega
        subst hveq
        refine ⟨cur, ?_, hcur, ?_, ?_⟩
        · rw [hnew]
        · rw [hnew, hat cur hcur, hd]
        · rw [hnew, hedge, hnone]
          simp
    · intro v c' w h
      rw [hedge] at h
      rcases he : findEdge t.edges v c' with _ | w'
      · rw [he] at h
        simp only at h
        split at h
        · rename_i heq
          injection h with h
          have h1 : cur = v := congrArg Prod.fst heq
          have h2 : code = c' := congrArg Prod.snd heq
          refine ⟨by omega, by omega, by have := hwf.root_lt; omega, ?_, ?_⟩
          · rw [← h, hnew, ← h1]
          · rw [← h, hnew, ← h2]
        · exact absurd h (by simp)
      · rw [he] at h
        simp only at h
        have hww : w' = w := by injection h
        subst hww
        obtain ⟨h1, h2, h3, h4, h5⟩ := hwf.edge_spec v c' w' he
        rw [hlen, hat w' h2]
        exact ⟨by omega, by omega, h3, h4, h5⟩
  refine ⟨hwf', ⟨hcm, hcs, by omega, ?_, ?_, ?_⟩, hnew, hlen, hat⟩
  · intro v hv; rw [hat v hv]; exact ⟨rfl, rfl, rfl⟩
  · intro v c' w h; rw [hedge, h]
  · intro v hv h; rw [hat v hv]; exact h

/-! ### Specification of `insertSyms`, `insertWord`, `insertAll` -/

theorem insertSyms_spec :
    ∀ (w : List Nat) (t : Trie) (cur chPos : Nat) (r : Trie × Nat),
      r = insertSyms t cur chPos w → WF t → cur < t.nodes.length →
      (nodeAt t cur).depth = chPos →
      WF r.1 ∧ Ext t r.1 ∧ r.2 < r.1.nodes.length ∧
      (nodeAt r.1 r.2).depth = chPos + w.length ∧
      str r.1 r.2 = str t cur ++ encW t.codeMap w ∧
      (∀ v, v < t.nodes.length →
        (nodeAt r.1 v).isLeaf = (nodeAt t v).isLeaf) ∧
      (∀ v, t.nodes.length ≤ v → v < r.1.nodes.length →
        (nodeAt r.1 v).isLeaf = none) := by
  intro w
  induction w with
  | nil =>
    intro t cur chPos r hr hwf hcur hd
    subst hr
    refine ⟨hwf, ext_refl t, hcur, ?_, ?_, fun v _ => rfl, ?_⟩
    · show (nodeAt t cur).depth = chPos + ([] : List Nat).length
      simpa using hd
    · show str t cur = str t cur ++ encW t.codeMap []
      simp [encW]
    · intro v h1 h2
      simp only [insertSyms] at h2
      omega
  | cons sym rest ih =>
    intro t cur chPos r hr hwf hcur hd
    rcases he : findEdge t.edges cur ((codeOf t.codeMap sym).toNat)
      with _ | nxt
    · -- no edge: a fresh node is created, then the rest is inserted
      simp only [insertSyms, he] at hr
      obtain ⟨hwf', hext', hnew, hlen', hat'⟩ :=
        insert_step_spec t _ cur ((codeOf t.codeMap sym).toNat) chPos rfl
          hwf hcur hd he
      obtain ⟨rwf, rext, rlt, rdepth, rstr, rleaf_old, rleaf_new⟩ :=
        ih _ t.nodes.length (chPos + 1) r hr hwf'
          (by omega) (by rw [hnew])
      refine ⟨rwf, ext_trans hext' rext, rlt,
        by rw [rdepth, List.length_cons]; omega, ?_, ?_, ?_⟩
      · -- the landing node's string
        rw [rstr, str_eq_parent _ hwf' t.nodes.length cur hwf.root_lt
          (by omega) (by rw [hnew]), ext_str t _ hwf hext' cur hcur,
          hext'.cm, hnew]
        simp [encW]
      · intro v hv
        rw [rleaf_old v (by omega), hat' v hv]
      · intro v hv1 hv2
        rcases Nat.lt_or_ge v (t.nodes.length + 1) with hvc | hvc
        · have hveq : v = t.nodes.length := by omega
          rw [hveq, rleaf_old t.nodes.length (by omega), hnew]
        · exact rleaf_new v (by omega) hv2
    · -- existing edge: walk to `nxt`
      simp only [insertSyms, he] at hr
      obtain ⟨_, hnxtlt, hnxt0, hpar, _⟩ :=
        hwf.edge_spec cur ((codeOf t.codeMap sym).toNat) nxt he
      have hdn : (nodeAt t nxt).depth = chPos + 1 := by
        obtain ⟨p, hp, _, hdp, _⟩ := hwf.parent_spec nxt hnxt0 hnxtlt
        rw [hpar] at hp
        injection hp with hp
        rw [hdp, ← hp, hd]
      obtain ⟨rwf, rext, rlt, rdepth, rstr, rleaf_old, rleaf_new⟩ :=
        ih t nxt (chPos + 1) r hr hwf hnxtlt hdn
      refine ⟨rwf, rext, rlt, by rw [rdepth, List.length_cons]; omega, ?_,
        rleaf_old, rleaf_new⟩
      rw [rstr, str_edge t hwf cur _ nxt he]
      simp [encW]

theorem insertWord_spec (t : Trie) (k : Nat) (w : List Nat) (hwf : WF t) :
    WF (insertWord t k w) ∧ Ext t (insertWord t k w) ∧
    (∃ v, v < (insertWord t k w).nodes.length ∧
      str (insertWord t k w) v = encW t.codeMap w ∧
      (nodeAt (insertWord t k w) v).isLeaf = some k) ∧
    (∀ v k', v < (insertWord t k w).nodes.length →
      (nodeAt (insertWord t k w) v).isLeaf = some k' →
      (k' = k ∧ str (insertWord t k w) v = encW t.codeMap w) ∨
      (v < t.nodes.length ∧ (nodeAt t v).isLeaf = some k')) := by
  obtain ⟨rwf, rext, rlt, _, rstr, rleaf_old, rleaf_new⟩ :=
    insertSyms_spec w t 0 0 (insertSyms t 0 0 w) rfl hwf hwf.root_lt
      hwf.root_depth
  have hiw : insertWord t k w =
      setLeaf (insertSyms t 0 0 w).1 (insertSyms t 0 0 w).2 k := rfl
  have hextL : Ext (insertSyms t 0 0 w).1 (insertWord t k w) := by
    rw [hiw]; exact ext_setLeaf _ _ k rlt
  have hstr2 : ∀ v, v < (insertSyms t 0 0 w).1.nodes.length →
      str (insertWord t k w) v = str (insertSyms t 0 0 w).1 v := by
    intro v hv; exact ext_str _ _ rwf hextL v hv
  have hlen2 : (insertWord t k w).nodes.length =
      (insertSyms t 0 0 w).1.nodes.length := by
    rw [hiw, setLeaf_length]
  refine ⟨by rw [hiw]; exact wf_setLeaf _ _ k rwf, ext_trans rext hextL,
    ?_, ?_⟩
  · refine ⟨(insertSyms t 0 0 w).2, by omega, ?_, ?_⟩
    · rw [hstr2 _ rlt, rstr, str_zero]; rfl
    · rw [hiw, nodeAt_setLeaf_self _ _ k rlt]
  · intro v k' hv hleaf
    rcases eq_or_ne (insertSyms t 0 0 w).2 v with rfl | hne
    · left
      rw [hiw, nodeAt_setLeaf_self _ _ k rlt] at hleaf
      simp only at hleaf
      injection hleaf with hleaf
      refine ⟨hleaf.symm, ?_⟩
      rw [hstr2 _ rlt, rstr, str_zero]; rfl
    · rw [hiw, nodeAt_setLeaf_ne _ _ _ k hne] at hleaf
      rcases Nat.lt_or_ge v t.nodes.length with hvt | hvt
      · right
        rw [rleaf_old v hvt] at hleaf
        exact ⟨hvt, hleaf⟩
      · rw [rleaf_new v hvt (by omega)] at hleaf
        cases hleaf

theorem getD_of_drop {α : Type} (l : List α) :
    ∀ (i : Nat) (x : α) (xs : List α) (d : α), l.drop i = x :: xs →
      l.getD i d = x ∧ l.drop (i + 1) = xs := by
  induction l with
  | nil => intro i x xs d h; rw [List.drop_nil] at h; cases h
  | cons y ys ih =>
    intro i x xs d h
    cases i with
    | zero =>
      rw [List.drop_zero] at h
      injection h with h1 h2
      subst h1
      constructor
      · rfl
      · show ys.drop 0 = xs
        rw [List.drop_zero]; exact h2
    | succ i' =>
      have hh : ys.drop i' = x :: xs := h
      obtain ⟨g1, g2⟩ := ih i' x xs d hh
      exact ⟨g1, g2⟩

theorem insertAll_spec (words : List (List Nat)) (CM : List Int) :
    ∀ (ws : List (List Nat)) (t : Trie) (i : Nat),
      ws = words.drop i → i ≤ words.length → WF t → t.codeMap = CM →
      (∀ v k, v < t.nodes.length → (nodeAt t v).isLeaf = some k →
        k < i ∧ str t v = encW CM (words.getD k [])) →
      (∀ k, k < i → ∃ v, v < t.nodes.length ∧
        str t v = encW CM (words.getD k []) ∧ (nodeAt t v).isLeaf.isSome) →
      WF (insertAll t i ws) ∧ (insertAll t i ws).codeMap = CM ∧
      (∀ v k, v < (insertAll t i ws).nodes.length →
        (nodeAt (insertAll t i ws) v).isLeaf = some k →
        k < words.length ∧
        str (insertAll t i ws) v = encW CM (words.getD k [])) ∧
      (∀ k, k < words.length → ∃ v, v < (insertAll t i ws).nodes.length ∧
        str (insertAll t i ws) v = encW CM (words.getD k []) ∧
        (nodeAt (insertAll t i ws) v).isLeaf.isSome) := by
  intro ws
  induction ws with
  | nil =>
    intro t i hdrop hi hwf hcm hsound hcomp
    have hieq : i = words.length := by
      have hl := congrArg List.length hdrop
      simp only [List.length_nil, List.length_drop] at hl
      omega
    simp only [insertAll]
    refine ⟨hwf, hcm, ?_, ?_⟩
    · intro v k hv hk
      obtain ⟨h1, h2⟩ := hsound v k hv hk
      exact ⟨by omega, h2⟩
    · intro k hk
      exact hcomp k (by omega)
  | cons w rest ih =>
    intro t i hdrop hi hwf hcm hsound hcomp
    have hlt : i < words.length := by
      by_contra hge
      rw [List.drop_eq_nil_of_le (by omega)] at hdrop
      cases hdrop
    obtain ⟨hw, hrest⟩ := getD_of_drop words i w rest [] hdrop.symm
    obtain ⟨jwf, jext, ⟨vw, hvwlt, hvwstr, hvwleaf⟩, jclass⟩ :=
      insertWord_spec t i w hwf
    have jcm : (insertWord t i w).codeMap = CM := jext.cm.trans hcm
    have happ : insertAll t i (w :: rest) =
        insertAll (insertWord t i w) (i + 1) rest := rfl
    rw [happ]
    refine ih (insertWord t i w) (i + 1) hrest.symm (by omega) jwf jcm ?_ ?_
    · intro v k hv hk
      rcases jclass v k hv hk with ⟨hkk, hstr⟩ | ⟨hvt, hold⟩
      · subst hkk
        exact ⟨by omega, by rw [hstr, hcm, hw]⟩
      · obtain ⟨h1, h2⟩ := hsound v k hvt hold
        refine ⟨by omega, ?_⟩
        rw [ext_str t _ hwf jext v hvt, h2]
    · intro k hk
      rcases Nat.lt_or_ge k i with hki | hki
      · obtain ⟨v, h1, h2, h3⟩ := hcomp k hki
        exact ⟨v, by have := jext.len_le; omega,
          by rw [ext_str t _ hwf jext v h1, h2], jext.leaf_mono v h1 h3⟩
      · have hkeq : k = i := by omega
        subst hkeq
        exact ⟨vw, hvwlt, by rw [hvwstr, hcm, hw], by rw [hvwleaf]; rfl⟩

/-- The automaton built by `Reset` satisfies the full invariant. -/
theorem good_reset (words : List (List Nat)) : Good words (reset words) := by
  have hwf0 : WF (Trie.mk (buildCodeMap words).1 (buildCodeMap words).2
      [{}] []) := by
    refine ⟨by simp, rfl, rfl, ?_, ?_⟩
    · intro v hv hvlen
      simp only [List.length_cons, List.length_nil] at hvlen
      omega
    · intro v c w h
      cases h
  obtain ⟨a, b, c, d⟩ :=
    insertAll_spec words (buildCodeMap words).1 words
      (Trie.mk (buildCodeMap words).1 (buildCodeMap words).2 [{}] [])
      0 (by rw [List.drop_zero]) (by omega) hwf0 rfl
      (by
        intro v k hv hk
        simp [nodeAt] at hk)
      (by intro k hk; omega)
  exact ⟨a, b, c, d⟩

/-! ### Stability of the lazy resolvers: fuel irrelevance, bounds -/

theorem suffLinkFuel_succ (t : Trie) (f v : Nat) :
    suffLinkFuel t (f + 1) v =
      if v = 0 ∨ (nodeAt t v).parent = some 0 then 0
      else goFuel t f (suffLinkFuel t f ((nodeAt t v).parent.getD 0))
        ((nodeAt t v).parentCode) := rfl

theorem goFuel_succ_of_edge (t : Trie) (f v code w : Nat)
    (h : findEdge t.edges v code = some w) : goFuel t (f + 1) v code = w := by
  show (match findEdge t.edges v code with
    | some w => w
    | none => if v = 0 then 0
        else goFuel t f (suffLinkFuel t f v) code) = w
  rw [h]

theorem goFuel_succ_of_none (t : Trie) (f v code : Nat)
    (h : findEdge t.edges v code = none) :
    goFuel t (f + 1) v code =
      if v = 0 then 0 else goFuel t f (suffLinkFuel t f v) code := by
  show (match findEdge t.edges v code with
    | some w => w
    | none => if v = 0 then 0
        else goFuel t f (suffLinkFuel t f v) code) = _
  rw [h]

theorem suffLinkFuel_node_zero (t : Trie) : ∀ f, suffLinkFuel t f 0 = 0 := by
  intro f
  cases f with
  | zero => rfl
  | succ f' => rw [suffLinkFuel_succ, if_pos (Or.inl rfl)]

/-- The heart of the termination argument: with fuel `2·depth + 1` (for
links) and `2·depth + 2` (for transitions) the fuel-indexed resolvers are
stable, their results are valid nodes, the suffix link strictly decreases
depth, and a transition increases depth by at most one. -/
theorem resolver_stable (t : Trie) (hwf : WF t) : ∀ d : Nat,
    (∀ v, v < t.nodes.length → (nodeAt t v).depth = d →
      ((∀ f, 2 * d + 1 ≤ f → suffLinkFuel t f v = suffLink t v) ∧
       suffLink t v < t.nodes.length ∧
       (0 < v → (nodeAt t (suffLink t v)).depth < d))) ∧
    (∀ v c, v < t.nodes.length → (nodeAt t v).depth = d →
      ((∀ f, 2 * d + 2 ≤ f → goFuel t f v c = goN t v c) ∧
       goN t v c < t.nodes.length ∧
       (nodeAt t (goN t v c)).depth ≤ d + 1)) := by
  intro d
  induction d using Nat.strong_induction_on with
  | _ d ih =>
    have hsl : ∀ v, v < t.nodes.length → (nodeAt t v).depth = d →
        (∀ f, 2 * d + 1 ≤ f → suffLinkFuel t f v = suffLink t v) ∧
        suffLink t v < t.nodes.length ∧
        (0 < v → (nodeAt t (suffLink t v)).depth < d) := by
      intro v hv hd
      rcases Nat.eq_zero_or_pos v with rfl | hpos
      · have hz := suffLinkFuel_node_zero t
        refine ⟨fun f _ => by rw [hz f, suffLink, hz], ?_,
          fun h => absurd h (by omega)⟩
        rw [suffLink, hz]; exact hwf.root_lt
      · have hdpos : 0 < (nodeAt t v).depth := wf_depth_pos t hwf v hpos hv
        by_cases hp0 : (nodeAt t v).parent = some 0
        · have hval : ∀ f, 1 ≤ f → suffLinkFuel t f v = 0 := by
            intro f hf
            obtain ⟨f', rfl⟩ : ∃ f', f = f' + 1 := ⟨f - 1, by omega⟩
            rw [suffLinkFuel_succ, if_pos (Or.inr hp0)]
          have hsv : suffLink t v = 0 := by
            rw [suffLink]; exact hval _ (by omega)
          refine ⟨fun f hf => by rw [hval f (by omega), hsv], ?_, ?_⟩
          · rw [hsv]; exact hwf.root_lt
          · intro _
            rw [hsv, hwf.root_depth]; omega
        · obtain ⟨p, hp, hplt, hdp, _⟩ := hwf.parent_spec v hpos hv
          have hpne : p ≠ 0 := by
            intro h; rw [h] at hp; exact hp0 hp
          have hppos : 0 < p := Nat.pos_of_ne_zero hpne
          have hdppos : 0 < (nodeAt t p).depth :=
            wf_depth_pos t hwf p hppos (lt_trans hplt hv)
          have hdpe : (nodeAt t p).depth = d - 1 := by omega
          have hd2 : 2 ≤ d := by omega
          obtain ⟨ihp, _⟩ := ih (d - 1) (by omega)
          obtain ⟨hpf, hplen, hpdec⟩ := ihp p (lt_trans hplt hv) hdpe
          have hudep : (nodeAt t (suffLink t p)).depth < d - 1 := hpdec hppos
          obtain ⟨_, ihg⟩ := ih ((nodeAt t (suffLink t p)).depth) (by omega)
          obtain ⟨hgf, hglen, hgdep⟩ :=
            ihg (suffLink t p) ((nodeAt t v).parentCode) hplen rfl
          have hval : ∀ f, 2 * d + 1 ≤ f → suffLinkFuel t f v =
              goN t (suffLink t p) ((nodeAt t v).parentCode) := by
            intro f hf
            obtain ⟨f', rfl⟩ : ∃ f', f = f' + 1 := ⟨f - 1, by omega⟩
            rw [suffLinkFuel_succ, if_neg (by push_neg; exact ⟨by omega, hp0⟩),
              hp, Option.getD_some, hpf f' (by omega), hgf f' (by omega)]
          have hsv : suffLink t v =
              goN t (suffLink t p) ((nodeAt t v).parentCode) := by
            rw [suffLink, hd]; exact hval _ (by omega)
          refine ⟨fun f hf => by rw [hval f hf, hsv], ?_, ?_⟩
          · rw [hsv]; exact hglen
          · intro _; rw [hsv]; omega
    refine ⟨hsl, ?_⟩
    intro v c hv hd
    rcases hedge : findEdge t.edges v c with _ | w
    · rcases Nat.eq_zero_or_pos v with rfl | hpos
      · have hval : ∀ f, 1 ≤ f → goFuel t f 0 c = 0 := by
          intro f hf
          obtain ⟨f', rfl⟩ : ∃ f', f = f' + 1 := ⟨f - 1, by omega⟩
          rw [goFuel_succ_of_none t f' 0 c hedge, if_pos rfl]
        have hgv : goN t 0 c = 0 := by
          rw [goN]; exact hval _ (by omega)
        refine ⟨fun f hf => by rw [hval f (by omega), hgv], ?_, ?_⟩
        · rw [hgv]; exact hwf.root_lt
        · rw [hgv, hwf.root_depth]; omega
      · have hd1 : 1 ≤ d := by
          have := wf_depth_pos t hwf v hpos hv; omega
        obtain ⟨hsf, hslen, hsdec⟩ := hsl v hv hd
        have hudep : (nodeAt t (suffLink t v)).depth < d := hsdec hpos
        obtain ⟨_, ihg⟩ := ih ((nodeAt t (suffLink t v)).depth) hudep
        obtain ⟨hgf, hglen, hgdep⟩ := ihg (suffLink t v) c hslen rfl
        have hval : ∀ f, 2 * d + 2 ≤ f →
            goFuel t f v c = goN t (suffLink t v) c := by
          intro f hf
          obtain ⟨f', rfl⟩ : ∃ f', f = f' + 1 := ⟨f - 1, by omega⟩
          rw [goFuel_succ_of_none t f' v c hedge, if_neg (by omega),
            hsf f' (by omega), hgf f' (by omega)]
        have hgv : goN t v c = goN t (suffLink t v) c := by
          rw [goN, hd]; exact hval _ (by omega)
        refine ⟨fun f hf => by rw [hval f hf, hgv], ?_, ?_⟩
        · rw [hgv]; exact hglen
        · rw [hgv]; omega
    · obtain ⟨_, hwlt, hw0, hwpar, _⟩ := hwf.edge_spec v c w hedge
      have hdw : (nodeAt t w).depth = d + 1 := by
        obtain ⟨p, hp, _, hdp, _⟩ := hwf.parent_spec w hw0 hwlt
        rw [hwpar] at hp
        injection hp with hp
        rw [hdp, ← hp, hd]
      have hval : ∀ f, 1 ≤ f → goFuel t f v c = w := by
        intro f hf
        obtain ⟨f', rfl⟩ : ∃ f', f = f' + 1 := ⟨f - 1, by omega⟩
        exact goFuel_succ_of_edge t f' v c w hedge
      have hgv : goN t v c = w := by
        rw [goN]; exact hval _ (by omega)
      refine ⟨fun f hf => by rw [hval f (by omega), hgv], ?_, ?_⟩
      · rw [hgv]; exact hwlt
      · rw [hgv, hdw]

/-! ### Derived facts about `suffLink` and `goN` -/

theorem suffLink_lt (t : Trie) (hwf : WF t) (v : Nat)
    (hv : v < t.nodes.length) : suffLink t v < t.nodes.length :=
  ((resolver_stable t hwf ((nodeAt t v).depth)).1 v hv rfl).2.1

theorem depth_suffLink_lt (t : Trie) (hwf : WF t) (v : Nat) (hpos : 0 < v)
    (hv : v < t.nodes.length) :
    (nodeAt t (suffLink t v)).depth < (nodeAt t v).depth :=
  ((resolver_stable t hwf ((nodeAt t v).depth)).1 v hv rfl).2.2 hpos

theorem goN_lt (t : Trie) (hwf : WF t) (v c : Nat)
    (hv : v < t.nodes.length) : goN t v c < t.nodes.length :=
  ((resolver_stable t hwf ((nodeAt t v).depth)).2 v c hv rfl).2.1

theorem depth_goN_le (t : Trie) (hwf : WF t) (v c : Nat)
    (hv : v < t.nodes.length) :
    (nodeAt t (goN t v c)).depth ≤ (nodeAt t v).depth + 1 :=
  ((resolver_stable t hwf ((nodeAt t v).depth)).2 v c hv rfl).2.2

theorem suffLinkFuel_eq (t : Trie) (hwf : WF t) (v f : Nat)
    (hv : v < t.nodes.length) (hf : 2 * (nodeAt t v).depth + 1 ≤ f) :
    suffLinkFuel t f v = suffLink t v :=
  ((resolver_stable t hwf ((nodeAt t v).depth)).1 v hv rfl).1 f hf

theorem goFuel_eq (t : Trie) (hwf : WF t) (v c f : Nat)
    (hv : v < t.nodes.length) (hf : 2 * (nodeAt t v).depth + 2 ≤ f) :
    goFuel t f v c = goN t v c :=
  ((resolver_stable t hwf ((nodeAt t v).depth)).2 v c hv rfl).1 f hf

theorem suffLink_zero (t : Trie) : suffLink t 0 = 0 := by
  rw [suffLink]; exact suffLinkFuel_node_zero t _

theorem suffLink_parent_root (t : Trie) (v : Nat)
    (h : (nodeAt t v).parent = some 0) : suffLink t v = 0 := by
  rw [suffLink, suffLinkFuel_succ, if_pos (Or.inr h)]

theorem wf_depth_edge (t : Trie) (hwf : WF t) (v c w : Nat)
    (h : findEdge t.edges v c = some w) :
    (nodeAt t w).depth = (nodeAt t v).depth + 1 := by
  obtain ⟨_, hwlt, hw0, hwpar, _⟩ := hwf.edge_spec v c w h
  obtain ⟨p, hp, _, hdp, _⟩ := hwf.parent_spec w hw0 hwlt
  rw [hwpar] at hp
  injection hp with hp
  rw [hdp, ← hp]

/-- The recursive equation of `GetLink` in the general case:
`link(v) = goto(link(parent(v)), parent_code(v))`. -/
theorem suffLink_rec (t : Trie) (hwf : WF t) (v p : Nat)
    (hv : v < t.nodes.length) (hpos : 0 < v)
    (hp : (nodeAt t v).parent = some p) (hpne : p ≠ 0) :
    suffLink t v = goN t (suffLink t p) ((nodeAt t v).parentCode) := by
  obtain ⟨p', hp', hplt, hdp, _⟩ := hwf.parent_spec v hpos hv
  rw [hp] at hp'
  injection hp' with hp'
  subst hp'
  have hplen : p < t.nodes.length := lt_trans hplt hv
  have hdppos : 0 < (nodeAt t p).depth :=
    wf_depth_pos t hwf p (Nat.pos_of_ne_zero hpne) hplen
  have hsd : (nodeAt t (suffLink t p)).depth < (nodeAt t p).depth :=
    depth_suffLink_lt t hwf p (Nat.pos_of_ne_zero hpne) hplen
  rw [suffLink, suffLinkFuel_succ,
    if_neg (by push_neg; refine ⟨by omega, ?_⟩; rw [hp]; simp [hpne]),
    hp, Option.getD_some,
    suffLinkFuel_eq t hwf p _ hplen (by omega),
    goFuel_eq t hwf (suffLink t p) _ _ (suffLink_lt t hwf p hplen) (by omega)]

/-- The transition equation when a literal trie edge exists. -/
theorem goN_edge (t : Trie) (v c w : Nat)
    (h : findEdge t.edges v c = some w) : goN t v c = w :=
  goFuel_succ_of_edge t (2 * (nodeAt t v).depth + 1) v c w h

/-- The root self-loop on codes without a literal edge. -/
theorem goN_root_none (t : Trie) (c : Nat)
    (h : findEdge t.edges 0 c = none) : goN t 0 c = 0 := by
  have h1 := goFuel_succ_of_none t (2 * (nodeAt t 0).depth + 1) 0 c h
  rw [if_pos rfl] at h1
  exact h1

/-- The transition equation in the fallback case: follow the suffix link. -/
theorem goN_none (t : Trie) (hwf : WF t) (v c : Nat)
    (hv : v < t.nodes.length) (hpos : v ≠ 0)
    (h : findEdge t.edges v c = none) :
    goN t v c = goN t (suffLink t v) c := by
  have hsd : (nodeAt t (suffLink t v)).depth < (nodeAt t v).depth :=
    depth_suffLink_lt t hwf v (Nat.pos_of_ne_zero hpos) hv
  have h1 := goFuel_succ_of_none t (2 * (nodeAt t v).depth + 1) v c h
  rw [if_neg hpos, suffLinkFuel_eq t hwf v _ hv (by omega),
    goFuel_eq t hwf (suffLink t v) c _ (suffLink_lt t hwf v hv) (by omega)]
    at h1
  exact h1

/-- A transition raises the depth by exactly one iff it follows a literal
trie edge. -/
theorem depth_goN_succ_iff (t : Trie) (hwf : WF t) (v c : Nat)
    (hv : v < t.nodes.length) :
    (nodeAt t (goN t v c)).depth = (nodeAt t v).depth + 1 ↔
      findEdge t.edges v c = some (goN t v c) := by
  constructor
  · intro hdep
    rcases hedge : findEdge t.edges v c with _ | w
    · rcases Nat.eq_zero_or_pos v with rfl | hpos
      · rw [goN_root_none t c hedge, hwf.root_depth] at hdep
        exact absurd hdep (by omega)
      · have h1 := goN_none t hwf v c hv (by omega) hedge
        have h2 : (nodeAt t (goN t (suffLink t v) c)).depth ≤
            (nodeAt t (suffLink t v)).depth + 1 :=
          depth_goN_le t hwf (suffLink t v) c (suffLink_lt t hwf v hv)
        have h3 := depth_suffLink_lt t hwf v hpos hv
        rw [h1] at hdep
        omega
    · rw [goN_edge t v c w hedge] at hdep ⊢
  · intro hedge
    exact wf_depth_edge t hwf v c _ hedge

/-! ### Suffix combinatorics -/

theorem suffix_snoc_cases {u l : List Nat} {a : Nat} (h : u <:+ l ++ [a]) :
    u = [] ∨ ∃ u', u = u' ++ [a] ∧ u' <:+ l := by
  rcases List.eq_nil_or_concat u with rfl | ⟨u', b, rfl⟩
  · left; rfl
  · right
    obtain ⟨s, hs⟩ := h
    rw [List.concat_eq_append, ← List.append_assoc] at hs
    obtain ⟨h1, h2⟩ := List.append_inj' hs rfl
    have hb : b = a := by simpa using h2
    exact ⟨u', by rw [List.concat_eq_append, hb], ⟨s, h1⟩⟩

theorem suffix_append_right {l1 l2 : List Nat} (l3 : List Nat)
    (h : l1 <:+ l2) : l1 ++ l3 <:+ l2 ++ l3 := by
  obtain ⟨s, rfl⟩ := h
  exact ⟨s, (List.append_assoc s l1 l3).symm⟩

theorem suffix_of_suffix_length_le {u1 u2 s : List Nat} (h1 : u1 <:+ s)
    (h2 : u2 <:+ s) (hl : u1.length ≤ u2.length) : u1 <:+ u2 := by
  rcases List.suffix_or_suffix_of_suffix h1 h2 with h | h
  · exact h
  · obtain ⟨s', rfl⟩ := h
    rw [List.length_append] at hl
    have hs0 : s' = [] := List.eq_nil_of_length_eq_zero (by omega)
    rw [hs0, List.nil_append]

/-! ### Trie strings -/

theorem isTrieStr_nil (t : Trie) (hwf : WF t) : isTrieStr t [] :=
  ⟨0, hwf.root_lt, rfl⟩

theorem isTrieStr_node (t : Trie) (v : Nat) (hv : v < t.nodes.length) :
    isTrieStr t (str t v) := ⟨v, hv, rfl⟩

/-- Trie strings are closed under removing the last code. -/
theorem isTrieStr_drop_last (t : Trie) (hwf : WF t) (s : List Nat) (c : Nat)
    (h : isTrieStr t (s ++ [c])) : isTrieStr t s := by
  obtain ⟨v, hv, hstr⟩ := h
  have hv0 : v ≠ 0 := by
    intro h0
    rw [h0, str_zero] at hstr
    exact absurd hstr.symm (by simp)
  obtain ⟨p, hp, hplt, _, _⟩ :=
    hwf.parent_spec v (Nat.pos_of_ne_zero hv0) hv
  rw [str_eq_parent t hwf v p (Nat.pos_of_ne_zero hv0) hv hp] at hstr
  obtain ⟨h1, _⟩ := List.append_inj' hstr rfl
  exact ⟨p, lt_trans hplt hv, h1⟩

/-- If `v` has no `c`-edge then `str v ++ [c]` is not in the trie. -/
theorem no_edge_not_trieStr (t : Trie) (hwf : WF t) (v c : Nat)
    (hv : v < t.nodes.length) (h : findEdge t.edges v c = none) :
    ¬ isTrieStr t (str t v ++ [c]) := by
  rintro ⟨w, hw, hstr⟩
  have hw0 : w ≠ 0 := by
    intro h0
    rw [h0, str_zero] at hstr
    exact absurd hstr.symm (by simp)
  obtain ⟨p, hp, hplt, _, hep⟩ :=
    hwf.parent_spec w (Nat.pos_of_ne_zero hw0) hw
  rw [str_eq_parent t hwf w p (Nat.pos_of_ne_zero hw0) hw hp] at hstr
  obtain ⟨h1, h2⟩ := List.append_inj' hstr rfl
  have hpc : (nodeAt t w).parentCode = c := by simpa using h2
  have hpv : p = v := str_inj t hwf p v (lt_trans hplt hw) hv h1
  rw [hpv, hpc] at hep
  rw [hep] at h
  cases h

/-! ### The suffix link is the longest proper trie suffix; `goN` computes
the longest trie suffix of the extended string -/

theorem link_go_longest (t : Trie) (hwf : WF t) : ∀ d : Nat,
    (∀ v, v < t.nodes.length → 0 < v → (nodeAt t v).depth = d →
      (str t (suffLink t v) <:+ str t v ∧
       ∀ u, u <:+ str t v → u ≠ str t v → isTrieStr t u →
         u <:+ str t (suffLink t v))) ∧
    (∀ v c, v < t.nodes.length → (nodeAt t v).depth = d →
      (str t (goN t v c) <:+ str t v ++ [c] ∧
       ∀ u, u <:+ str t v ++ [c] → isTrieStr t u →
         u <:+ str t (goN t v c))) := by
  intro d
  induction d using Nat.strong_induction_on with
  | _ d ih =>
    have hlink : ∀ v, v < t.nodes.length → 0 < v → (nodeAt t v).depth = d →
        (str t (suffLink t v) <:+ str t v ∧
         ∀ u, u <:+ str t v → u ≠ str t v → isTrieStr t u →
           u <:+ str t (suffLink t v)) := by
      intro v hv hpos hd
      obtain ⟨p, hp, hplt, hdp, _⟩ := hwf.parent_spec v hpos hv
      have hsv : str t v = str t p ++ [(nodeAt t v).parentCode] :=
        str_eq_parent t hwf v p hpos hv hp
      rcases Nat.eq_zero_or_pos p with rfl | hppos
      · -- the parent is the root: the link is the root
        have hl0 : suffLink t v = 0 := suffLink_parent_root t v hp
        rw [hl0, str_zero]
        refine ⟨List.nil_suffix, ?_⟩
        intro u hu hne _
        rw [hsv, str_zero] at hu hne
        rcases suffix_snoc_cases hu with rfl | ⟨u', rfl, hu'⟩
        · exact List.suffix_refl []
        · rw [List.suffix_nil] at hu'
          subst hu'
          exact absurd rfl hne
      · -- general case: link(v) = go(link(p), parent_code(v))
        have hpne : p ≠ 0 := by omega
        have hplen : p < t.nodes.length := lt_trans hplt hv
        have hrec : suffLink t v =
            goN t (suffLink t p) ((nodeAt t v).parentCode) :=
          suffLink_rec t hwf v p hv hpos hp hpne
        have hdppos : 0 < (nodeAt t p).depth :=
          wf_depth_pos t hwf p hppos hplen
        have hdpe : (nodeAt t p).depth = d - 1 := by omega
        obtain ⟨ihl, _⟩ := ih (d - 1) (by omega)
        obtain ⟨hlsuf, hlmax⟩ := ihl p hplen hppos hdpe
        have hsd : (nodeAt t (suffLink t p)).depth < d - 1 :=
          hdpe ▸ depth_suffLink_lt t hwf p hppos hplen
        obtain ⟨_, ihg⟩ := ih ((nodeAt t (suffLink t p)).depth) (by omega)
        obtain ⟨hgsuf, hgmax⟩ :=
          ihg (suffLink t p) ((nodeAt t v).parentCode)
            (suffLink_lt t hwf p hplen) rfl
        constructor
        · rw [hrec, hsv]
          exact hgsuf.trans (suffix_append_right _ hlsuf)
        · intro u hu hne hustr
          rw [hsv] at hu hne
          rcases suffix_snoc_cases hu with rfl | ⟨u', rfl, hu'⟩
          · rw [hrec]; exact List.nil_suffix
          · have hu'ne : u' ≠ str t p := by
              intro h0; rw [h0] at hne; exact hne rfl
            have hu'str : isTrieStr t u' :=
              isTrieStr_drop_last t hwf u' _ hustr
            have h1 : u' <:+ str t (suffLink t p) := hlmax u' hu' hu'ne hu'str
            have h2 : u' ++ [(nodeAt t v).parentCode] <:+
                str t (suffLink t p) ++ [(nodeAt t v).parentCode] :=
              suffix_append_right _ h1
            rw [hrec]
            exact hgmax _ h2 hustr
    refine ⟨hlink, ?_⟩
    intro v c hv hd
    rcases hedge : findEdge t.edges v c with _ | w
    · rcases Nat.eq_zero_or_pos v with rfl | hpos
      · -- the root self-loop
        have hg0 : goN t 0 c = 0 := goN_root_none t c hedge
        rw [hg0, str_zero]
        refine ⟨List.nil_suffix, ?_⟩
        intro u hu hustr
        rcases suffix_snoc_cases hu with rfl | ⟨u', rfl, hu'⟩
        · exact List.suffix_refl []
        · rw [List.suffix_nil] at hu'
          subst hu'
          rw [List.nil_append] at hustr
          exact absurd hustr
            (by
              have := no_edge_not_trieStr t hwf 0 c hwf.root_lt hedge
              rwa [str_zero, List.nil_append] at this)
      · -- fall through the suffix link
        have hgrec : goN t v c = goN t (suffLink t v) c :=
          goN_none t hwf v c hv (by omega) hedge
        obtain ⟨hlsuf, hlmax⟩ := hlink v hv hpos hd
        have hsd : (nodeAt t (suffLink t v)).depth < d :=
          hd ▸ depth_suffLink_lt t hwf v hpos hv
        obtain ⟨_, ihg⟩ := ih ((nodeAt t (suffLink t v)).depth) hsd
        obtain ⟨hgsuf, hgmax⟩ :=
          ihg (suffLink t v) c (suffLink_lt t hwf v hv) rfl
        constructor
        · rw [hgrec]
          exact hgsuf.trans (suffix_append_right _ hlsuf)
        · intro u hu hustr
          rcases suffix_snoc_cases hu with rfl | ⟨u', rfl, hu'⟩
          · rw [hgrec]; exact List.nil_suffix
          · have hu'ne : u' ≠ str t v := by
              rintro rfl
              exact no_edge_not_trieStr t hwf v c hv hedge hustr
            have hu'str : isTrieStr t u' :=
              isTrieStr_drop_last t hwf u' c hustr
            have h1 : u' <:+ str t (suffLink t v) := hlmax u' hu' hu'ne hu'str
            rw [hgrec]
            exact hgmax _ (suffix_append_right _ h1) hustr
    · -- a literal edge: the result is the full extension
      rw [goN_edge t v c w hedge, str_edge t hwf v c w hedge]
      exact ⟨List.suffix_refl _, fun u hu _ => hu⟩

/-- The suffix link target spells the longest proper suffix of the node's
string that is present in the trie. -/
theorem suffLink_is_longest (t : Trie) (hwf : WF t) (v : Nat) (hpos : 0 < v)
    (hv : v < t.nodes.length) :
    isLongestProperTrieSuffix t (str t v) (str t (suffLink t v)) := by
  obtain ⟨hsuf, hmax⟩ :=
    (link_go_longest t hwf ((nodeAt t v).depth)).1 v hv hpos rfl
  refine ⟨hsuf, ?_, isTrieStr_node t _ (suffLink_lt t hwf v hv), hmax⟩
  intro heq
  have h1 := str_length t hwf v hv
  have h2 := str_length t hwf (suffLink t v) (suffLink_lt t hwf v hv)
  have h3 := depth_suffLink_lt t hwf v hpos hv
  rw [heq, h1] at h2
  omega

theorem goN_suffix (t : Trie) (hwf : WF t) (v c : Nat)
    (hv : v < t.nodes.length) : str t (goN t v c) <:+ str t v ++ [c] :=
  ((link_go_longest t hwf ((nodeAt t v).depth)).2 v c hv rfl).1

theorem goN_max (t : Trie) (hwf : WF t) (v c : Nat) (hv : v < t.nodes.length)
    (u : List Nat) (hu : u <:+ str t v ++ [c]) (hustr : isTrieStr t u) :
    u <:+ str t (goN t v c) :=
  ((link_go_longest t hwf ((nodeAt t v).depth)).2 v c hv rfl).2 u hu hustr

/-! ### Encoding lemmas -/

theorem encW_nil (cm : List Int) : encW cm [] = [] := rfl

theorem encW_cons (cm : List Int) (c : Nat) (s : List Nat) :
    encW cm (c :: s) = (codeOf cm c).toNat :: encW cm s := rfl

theorem encW_append (cm : List Int) (s1 s2 : List Nat) :
    encW cm (s1 ++ s2) = encW cm s1 ++ encW cm s2 := by
  unfold encW; exact List.map_append _ _ _

theorem allMapped_suffix (cm : List Int) (s1 s2 : List Nat) (h : s1 <:+ s2)
    (hm : allMapped cm s2) : allMapped cm s1 := by
  intro c hc
  exact hm c (h.sublist.subset hc)

theorem allMapped_of_isPrefix (cm : List Int) (s1 s2 : List Nat) (h : s1 <+: s2)
    (hm : allMapped cm s2) : allMapped cm s1 := by
  intro c hc
  exact hm c (h.sublist.subset hc)

theorem encW_inj (cm : List Int) (hlb : ∀ c, -1 ≤ codeOf cm c)
    (hinj : ∀ c1 c2, codeOf cm c1 ≠ -1 → codeOf cm c1 = codeOf cm c2 →
      c1 = c2) :
    ∀ s1 s2, allMapped cm s1 → allMapped cm s2 →
      encW cm s1 = encW cm s2 → s1 = s2 := by
  intro s1
  induction s1 with
  | nil =>
    intro s2 _ _ he
    cases s2 with
    | nil => rfl
    | cons c cs => cases he
  | cons c cs ih =>
    intro s2 h1 h2 he
    cases s2 with
    | nil => cases he
    | cons c' cs' =>
      rw [encW_cons, encW_cons] at he
      injection he with hh ht
      have hc : codeOf cm c ≠ -1 := h1 c (List.mem_cons_self c cs)
      have hc' : codeOf cm c' ≠ -1 := h2 c' (List.mem_cons_self c' cs')
      have hcv : codeOf cm c = codeOf cm c' := by
        have e1 : codeOf cm c = ((codeOf cm c).toNat : Int) :=
          (Int.toNat_of_nonneg (by have := hlb c; omega)).symm
        have e2 : codeOf cm c' = ((codeOf cm c').toNat : Int) :=
          (Int.toNat_of_nonneg (by have := hlb c'; omega)).symm
        rw [e1, e2, hh]
      have : c = c' := hinj c c' hc hcv
      rw [this, ih cs' (fun x hx => h1 x (List.mem_cons_of_mem c hx))
        (fun x hx => h2 x (List.mem_cons_of_mem c' hx)) ht]

theorem map_suffix_inv (f : Nat → Nat) :
    ∀ (l s : List Nat), s <:+ l.map f → ∃ l', l' <:+ l ∧ l'.map f = s := by
  intro l
  induction l with
  | nil =>
    intro s hs
    rw [List.map_nil, List.suffix_nil] at hs
    exact ⟨[], List.suffix_refl [], by simp [hs]⟩
  | cons x xs ih =>
    intro s hs
    rw [List.map_cons] at hs
    rcases List.suffix_cons_iff.1 hs with heq | htl
    · exact ⟨x :: xs, List.suffix_refl _, heq.symm⟩
    · obtain ⟨l', hl, hm⟩ := ih s htl
      exact ⟨l', hl.trans (List.suffix_cons x xs), hm⟩

theorem getD_mem {α : Type} : ∀ (l : List α) (k : Nat) (d : α),
    k < l.length → l.getD k d ∈ l := by
  intro l
  induction l with
  | nil => intro k d h; simp at h
  | cons x xs ih =>
    intro k d h
    cases k with
    | zero => exact List.mem_cons_self x xs
    | succ k' =>
      exact List.mem_cons_of_mem x (ih k' d (by simpa using h))

/-! ### Prefixes of trie strings -/

theorem prefix_snoc_cases {u l : List Nat} {a : Nat} (h : u <+: l ++ [a]) :
    u = l ++ [a] ∨ u <+: l := by
  obtain ⟨tl, htl⟩ := h
  rcases List.eq_nil_or_concat tl with rfl | ⟨t0, b, rfl⟩
  · left; rw [← htl, List.append_nil]
  · right
    rw [List.concat_eq_append, ← List.append_assoc] at htl
    obtain ⟨h1, _⟩ := List.append_inj' htl rfl
    exact ⟨t0, h1⟩

theorem isTrieStr_prefix_node (t : Trie) (hwf : WF t) :
    ∀ v, v < t.nodes.length → ∀ s', s' <+: str t v → isTrieStr t s' := by
  intro v
  induction v using Nat.strong_induction_on with
  | _ v ih =>
    intro hv s' hpre
    rcases Nat.eq_zero_or_pos v with rfl | hpos
    · rw [str_zero, List.prefix_nil] at hpre
      rw [hpre]
      exact isTrieStr_nil t hwf
    · obtain ⟨p, hp, hplt, _, _⟩ := hwf.parent_spec v hpos hv
      rw [str_eq_parent t hwf v p hpos hv hp] at hpre
      rcases prefix_snoc_cases hpre with heq | hpre'
      · rw [heq, ← str_eq_parent t hwf v p hpos hv hp]
        exact isTrieStr_node t v hv
      · exact ih p hplt (lt_trans hplt hv) s' hpre'

theorem isTrieStr_prefix (t : Trie) (hwf : WF t) (s s' : List Nat)
    (hpre : s' <+: s) (h : isTrieStr t s) : isTrieStr t s' := by
  obtain ⟨v, hv, hstr⟩ := h
  exact isTrieStr_prefix_node t hwf v hv s' (by rw [hstr]; exact hpre)

/-! ### `trieWalk` lemmas -/

theorem trieWalk_str (t : Trie) (hwf : WF t) :
    ∀ v, v < t.nodes.length → trieWalk t 0 (str t v) = some v := by
  have hgen : ∀ (n v : Nat), v < t.nodes.length → v ≤ n →
      trieWalk t 0 (str t v) = some v := by
    intro n
    induction n with
    | zero =>
      intro v hv hvn
      have : v = 0 := by omega
      subst this
      rw [str_zero]; rfl
    | succ n' ih =>
      intro v hv hvn
      rcases Nat.eq_zero_or_pos v with rfl | hpos
      · rw [str_zero]; rfl
      · obtain ⟨p, hp, hplt, _, hep⟩ := hwf.parent_spec v hpos hv
        rw [str_eq_parent t hwf v p hpos hv hp]
        have hwalkp : trieWalk t 0 (str t p) = some p :=
          ih p (lt_trans hplt hv) (by omega)
        have happ : ∀ (u : Nat) (a b : List Nat),
            trieWalk t u (a ++ b) =
              (trieWalk t u a).bind (fun w => trieWalk t w b) := by
          intro u a
          induction a generalizing u with
          | nil => intro b; rfl
          | cons c0 cr iha =>
            intro b
            have hstep : ∀ (u' : Nat) (rest : List Nat),
                trieWalk t u' (c0 :: rest) =
                  match findEdge t.edges u' c0 with
                  | some w => trieWalk t w rest
                  | none => none := fun u' rest => rfl
            rw [List.cons_append, hstep, hstep]
            rcases hh : findEdge t.edges u c0 with _ | w
            · rfl
            · exact iha w b
        rw [happ, hwalkp]
        show trieWalk t p [(nodeAt t v).parentCode] = some v
        show (match findEdge t.edges p ((nodeAt t v).parentCode) with
          | some w => trieWalk t w []
          | none => none) = some v
        rw [hep]
        rfl
  intro v hv
  exact hgen v v hv (le_refl v)

theorem trieWalk_sound (t : Trie) (hwf : WF t) :
    ∀ (cs : List Nat) (v w : Nat), v < t.nodes.length →
      trieWalk t v cs = some w →
      w < t.nodes.length ∧ str t w = str t v ++ cs := by
  intro cs
  induction cs with
  | nil =>
    intro v w hv h
    injection h with h
    subst h
    exact ⟨hv, by rw [List.append_nil]⟩
  | cons c rest ih =>
    intro v w hv h
    rcases he : findEdge t.edges v c with _ | x
    · rw [show trieWalk t v (c :: rest) =
          (match findEdge t.edges v c with
            | some w => trieWalk t w rest
            | none => none) from rfl, he] at h
      cases h
    · rw [show trieWalk t v (c :: rest) =
          (match findEdge t.edges v c with
            | some w => trieWalk t w rest
            | none => none) from rfl, he] at h
      obtain ⟨hx, _, _, _, _⟩ := hwf.edge_spec v c x he
      obtain ⟨hw, hsw⟩ := ih x w (hwf.edge_spec v c x he).2.1 h
      rw [hsw, str_edge t hwf v c x he, List.append_assoc]
      exact ⟨hw, rfl⟩

theorem isTrieStr_iff_walk (t : Trie) (hwf : WF t) (cs : List Nat) :
    isTrieStr t cs ↔ ∃ w, trieWalk t 0 cs = some w := by
  constructor
  · rintro ⟨v, hv, rfl⟩
    exact ⟨v, trieWalk_str t hwf v hv⟩
  · rintro ⟨w, hw⟩
    obtain ⟨hwlt, hsw⟩ := trieWalk_sound t hwf cs 0 w hwf.root_lt hw
    rw [str_zero, List.nil_append] at hsw
    exact ⟨w, hwlt, hsw⟩

/-! ### Unfolding helpers for the query surface -/

theorem initState_idx : initState.idx = 0 := rfl

theorem initState_depth : initState.depth = 0 := rfl

theorem initState_leaf : initState.leaf = none := rfl

theorem stateOf_idx (t : Trie) (v : Nat) : (stateOf t v).idx = v := rfl

theorem stateOf_depth (t : Trie) (v : Nat) :
    (stateOf t v).depth = (nodeAt t v).depth := rfl

theorem stateOf_leaf (t : Trie) (v : Nat) :
    (stateOf t v).leaf = (nodeAt t v).isLeaf := rfl

theorem switchState_unmapped (t : Trie) (c : Nat) (st : TState)
    (h : codeOf t.codeMap c = -1) : switchState t c st = initState := by
  unfold switchState
  rw [if_pos h]

theorem switchState_mapped (t : Trie) (c : Nat) (st : TState)
    (h : codeOf t.codeMap c ≠ -1) :
    switchState t c st =
      stateOf t (goN t st.idx (codeOf t.codeMap c).toNat) := by
  unfold switchState switchStateCode
  rw [if_neg h]

theorem hasPrefixGo_cons (t : Trie) (st : TState) (c : Nat)
    (rest : List Nat) :
    hasPrefixGo t st (c :: rest) =
      if (switchState t c st).depth = st.depth + 1
      then hasPrefixGo t (switchState t c st) rest else false := rfl

theorem hasStringGo_cons (t : Trie) (st : TState) (c : Nat)
    (rest : List Nat) :
    hasStringGo t st (c :: rest) =
      if (switchState t c st).depth = st.depth + 1
      then hasStringGo t (switchState t c st) rest else false := rfl

theorem trieWalk_cons (t : Trie) (v c : Nat) (rest : List Nat) :
    trieWalk t v (c :: rest) =
      match findEdge t.edges v c with
      | some w => trieWalk t w rest
      | none => none := rfl

/-! ### Characterisation of `hasPrefix` and `hasString` -/

theorem hasPrefixGo_iff (t : Trie) (hwf : WF t) :
    ∀ (s : List Nat) (st : TState), st.idx < t.nodes.length →
      st.depth = (nodeAt t st.idx).depth →
      (hasPrefixGo t st s = true ↔
        (allMapped t.codeMap s ∧
         ∃ w, trieWalk t st.idx (encW t.codeMap s) = some w)) := by
  intro s
  induction s with
  | nil =>
    intro st hidx hdep
    constructor
    · intro _
      exact ⟨fun c hc => absurd hc (List.not_mem_nil c), ⟨st.idx, rfl⟩⟩
    · intro _; rfl
  | cons c rest ih =>
    intro st hidx hdep
    rw [hasPrefixGo_cons]
    by_cases hm : codeOf t.codeMap c = -1
    · rw [switchState_unmapped t c st hm,
        if_neg (show ¬ (initState.depth = st.depth + 1) by
          rw [initState_depth]; omega)]
      constructor
      · intro h; cases h
      · rintro ⟨ham, _⟩
        exact absurd hm (ham c (List.mem_cons_self c rest))
    · rw [switchState_mapped t c st hm]
      by_cases hcond :
          (nodeAt t (goN t st.idx (codeOf t.codeMap c).toNat)).depth =
            (nodeAt t st.idx).depth + 1
      · have hedge := (depth_goN_succ_iff t hwf st.idx _ hidx).1 hcond
        rw [if_pos (by rw [stateOf_depth, hdep]; exact hcond),
          ih (stateOf t (goN t st.idx (codeOf t.codeMap c).toNat))
            (goN_lt t hwf st.idx _ hidx) rfl,
          encW_cons, trieWalk_cons, hedge]
        constructor
        · rintro ⟨ham, w, hw⟩
          refine ⟨?_, w, hw⟩
          intro x hx
          rcases List.mem_cons.1 hx with rfl | hx'
          · exact hm
          · exact ham x hx'
        · rintro ⟨ham, w, hw⟩
          exact ⟨fun x hx => ham x (List.mem_cons_of_mem c hx), w, hw⟩
      · rw [if_neg (show ¬ ((stateOf t
            (goN t st.idx (codeOf t.codeMap c).toNat)).depth =
              st.depth + 1) by
          rw [stateOf_depth, hdep]; exact hcond)]
        constructor
        · intro h; cases h
        · rintro ⟨_, w, hw⟩
          rw [encW_cons, trieWalk_cons] at hw
          rcases hedge : findEdge t.edges st.idx
              ((codeOf t.codeMap c).toNat) with _ | x
          · rw [hedge] at hw; cases hw
          · exfalso
            apply hcond
            rw [goN_edge t st.idx _ x hedge]
            exact wf_depth_edge t hwf st.idx _ x hedge

theorem hasStringGo_iff (t : Trie) (hwf : WF t) :
    ∀ (s : List Nat) (st : TState), st.idx < t.nodes.length →
      st.depth = (nodeAt t st.idx).depth →
      (hasStringGo t st s = true ↔
        ((s = [] ∧ st.leaf.isSome = true) ∨
         (s ≠ [] ∧ allMapped t.codeMap s ∧
          ∃ w, trieWalk t st.idx (encW t.codeMap s) = some w ∧
            (nodeAt t w).isLeaf.isSome = true))) := by
  intro s
  induction s with
  | nil =>
    intro st hidx hdep
    constructor
    · intro h
      exact Or.inl ⟨rfl, h⟩
    · rintro (⟨_, h⟩ | ⟨hne, _⟩)
      · exact h
      · exact absurd rfl hne
  | cons c rest ih =>
    intro st hidx hdep
    rw [hasStringGo_cons]
    by_cases hm : codeOf t.codeMap c = -1
    · rw [switchState_unmapped t c st hm,
        if_neg (show ¬ (initState.depth = st.depth + 1) by
          rw [initState_depth]; omega)]
      constructor
      · intro h; cases h
      · rintro (⟨h, _⟩ | ⟨_, ham, _⟩)
        · cases h
        · exact absurd hm (ham c (List.mem_cons_self c rest))
    · rw [switchState_mapped t c st hm]
      by_cases hcond :
          (nodeAt t (goN t st.idx (codeOf t.codeMap c).toNat)).depth =
            (nodeAt t st.idx).depth + 1
      · have hedge := (depth_goN_succ_iff t hwf st.idx _ hidx).1 hcond
        rw [if_pos (by rw [stateOf_depth, hdep]; exact hcond),
          ih (stateOf t (goN t st.idx (codeOf t.codeMap c).toNat))
            (goN_lt t hwf st.idx _ hidx) rfl]
        rw [encW_cons, trieWalk_cons, hedge]
        constructor
        · rintro (⟨rfl, hleaf⟩ | ⟨hne, ham, w, hw, hleaf⟩)
          · refine Or.inr ⟨by simp, ?_, ?_⟩
            · intro x hx
              rcases List.mem_cons.1 hx with rfl | hx'
              · exact hm
              · exact absurd hx' (List.not_mem_nil x)
            · exact ⟨goN t st.idx (codeOf t.codeMap c).toNat, rfl, hleaf⟩
          · refine Or.inr ⟨by simp, ?_, w, hw, hleaf⟩
            intro x hx
            rcases List.mem_cons.1 hx with rfl | hx'
            · exact hm
            · exact ham x hx'
        · rintro (⟨h, _⟩ | ⟨_, ham, w, hw, hleaf⟩)
          · cases h
          · cases rest with
            | nil =>
              left
              refine ⟨rfl, ?_⟩
              rw [encW_nil] at hw
              injection hw with hw
              rw [stateOf_leaf, hw]
              exact hleaf
            | cons c2 r2 =>
              refine Or.inr ⟨by simp, ?_, w, hw, hleaf⟩
              intro x hx
              exact ham x (List.mem_cons_of_mem c hx)
      · rw [if_neg (show ¬ ((stateOf t
            (goN t st.idx (codeOf t.codeMap c).toNat)).depth =
              st.depth + 1) by
          rw [stateOf_depth, hdep]; exact hcond)]
        constructor
        · intro h; cases h
        · rintro (⟨h, _⟩ | ⟨_, _, w, hw, _⟩)
          · cases h
          · rw [encW_cons, trieWalk_cons] at hw
            rcases hedge : findEdge t.edges st.idx
                ((codeOf t.codeMap c).toNat) with _ | x
            · rw [hedge] at hw; cases hw
            · exfalso
              apply hcond
              rw [goN_edge t st.idx _ x hedge]
              exact wf_depth_edge t hwf st.idx _ x hedge

/-! ### The state reached by scanning a text -/

theorem runFrom_append (t : Trie) :
    ∀ (a b : List Nat) (st : TState),
      runFrom t st (a ++ b) = runFrom t (runFrom t st a) b := by
  intro a
  induction a with
  | nil => intro b st; rfl
  | cons c cr ih =>
    intro b st
    rw [List.cons_append]
    exact ih b (switchState t c st)

theorem runState_snoc (t : Trie) (u : List Nat) (c : Nat) :
    runState t (u ++ [c]) = switchState t c (runState t u) := by
  rw [runState, runFrom_append]
  rfl

/-- Invariant of the scanning state: it is a valid node, is either the
default root state or a full node state, and its string is the longest
trie string arising as the encoding of a fully-mapped suffix of the
scanned text. -/
theorem runState_inv (t : Trie) (hwf : WF t) :
    ∀ u : List Nat,
      (runState t u).idx < t.nodes.length ∧
      ((runState t u) = initState ∨
        runState t u = stateOf t (runState t u).idx) ∧
      (∃ w, w <:+ u ∧ allMapped t.codeMap w ∧
        encW t.codeMap w = str t (runState t u).idx) ∧
      (∀ s', isTrieStr t s' →
        (∃ w', w' <:+ u ∧ allMapped t.codeMap w' ∧ encW t.codeMap w' = s') →
        s' <:+ str t (runState t u).idx) := by
  intro u
  induction u using List.reverseRecOn with
  | nil =>
    refine ⟨hwf.root_lt, Or.inl rfl,
      ⟨[], List.suffix_refl [],
        fun x hx => absurd hx (List.not_mem_nil x), ?_⟩, ?_⟩
    · rw [encW_nil]
      show ([] : List Nat) = str t initState.idx
      rw [initState_idx, str_zero]
    · rintro s' _ ⟨w', hw', _, henc⟩
      rw [List.suffix_nil] at hw'
      subst hw'
      rw [← henc, encW_nil]
      exact List.nil_suffix
  | append_singleton u c ih =>
    obtain ⟨hidx, _, ⟨wst, hwsuf, hwmap, hwenc⟩, hmax⟩ := ih
    by_cases hm : codeOf t.codeMap c = -1
    · rw [runState_snoc, switchState_unmapped t c _ hm]
      refine ⟨by rw [initState_idx]; exact hwf.root_lt, Or.inl rfl,
        ⟨[], List.nil_suffix,
          fun x hx => absurd hx (List.not_mem_nil x), ?_⟩, ?_⟩
      · rw [encW_nil, initState_idx, str_zero]
      · rintro s' _ ⟨w', hw', hwm', henc'⟩
        rcases suffix_snoc_cases hw' with rfl | ⟨w'', rfl, _⟩
        · rw [← henc', encW_nil]
          exact List.nil_suffix
        · exfalso
          exact hwm' c (List.mem_append_right w''
            (List.mem_singleton_self c)) hm
    · rw [runState_snoc, switchState_mapped t c _ hm]
      refine ⟨by rw [stateOf_idx]; exact goN_lt t hwf _ _ hidx,
        Or.inr rfl, ?_, ?_⟩
      · rcases suffix_snoc_cases (goN_suffix t hwf (runState t u).idx
            ((codeOf t.codeMap c).toNat) hidx) with hnil | ⟨s2, hseq, hs2⟩
        · exact ⟨[], List.nil_suffix,
            fun x hx => absurd hx (List.not_mem_nil x),
            by rw [encW_nil, stateOf_idx, hnil]⟩
        · rw [← hwenc] at hs2
          obtain ⟨w2, hw2suf, hw2enc⟩ :=
            map_suffix_inv (fun x => (codeOf t.codeMap x).toNat) wst s2 hs2
          refine ⟨w2 ++ [c], suffix_append_right [c] (hw2suf.trans hwsuf),
            ?_, ?_⟩
          · intro x hx
            rcases List.mem_append.1 hx with hx' | hx'
            · exact allMapped_suffix _ _ _ hw2suf hwmap x hx'
            · rw [List.mem_singleton.1 hx']
              exact hm
          · rw [stateOf_idx, hseq, encW_append, ← hw2enc]
            rfl
      · rintro s' hstr ⟨w', hw', hwm', henc'⟩
        rw [stateOf_idx]
        apply goN_max t hwf (runState t u).idx ((codeOf t.codeMap c).toNat)
          hidx s' ?_ hstr
        rcases suffix_snoc_cases hw' with rfl | ⟨w'', rfl, hw''⟩
        · rw [← henc', encW_nil]
          exact List.nil_suffix
        · have hs' : s' = encW t.codeMap w'' ++ [(codeOf t.codeMap c).toNat] := by
            rw [← henc', encW_append]
            rfl
          have htrie'' : isTrieStr t (encW t.codeMap w'') := by
            apply isTrieStr_drop_last t hwf _ ((codeOf t.codeMap c).toNat)
            rw [← hs']
            exact hstr
          have hm'' : allMapped t.codeMap w'' :=
            allMapped_of_isPrefix _ _ _ ⟨[c], rfl⟩ hwm'
          have h1 : encW t.codeMap w'' <:+ str t (runState t u).idx :=
            hmax (encW t.codeMap w'') htrie'' ⟨w'', hw'', hm'', rfl⟩
          rw [hs']
          exact suffix_append_right _ h1

/-! ### Structural lemmas about `searchGo` -/

theorem searchGo_cons (t : Trie) (st : TState) (i : Nat)
    (res : List (Nat × Nat)) (c : Nat) (rest : List Nat) :
    searchGo t st i res (c :: rest) =
      match (switchState t c st).leaf with
      | some k => searchGo t (switchState t c st) (i + 1)
          (res ++ [(i + 1, k)]) rest
      | none => searchGo t (switchState t c st) (i + 1) res rest := rfl

theorem runFrom_cons (t : Trie) (st : TState) (c : Nat) (l : List Nat) :
    runFrom t st (c :: l) = runFrom t (switchState t c st) l := rfl

theorem searchGo_cons_some (t : Trie) (st : TState) (i k0 : Nat)
    (res : List (Nat × Nat)) (c : Nat) (rest : List Nat)
    (h : (switchState t c st).leaf = some k0) :
    searchGo t st i res (c :: rest) =
      searchGo t (switchState t c st) (i + 1) (res ++ [(i + 1, k0)]) rest := by
  rw [searchGo_cons, h]

theorem searchGo_cons_none (t : Trie) (st : TState) (i : Nat)
    (res : List (Nat × Nat)) (c : Nat) (rest : List Nat)
    (h : (switchState t c st).leaf = none) :
    searchGo t st i res (c :: rest) =
      searchGo t (switchState t c st) (i + 1) res rest := by
  rw [searchGo_cons, h]

/-- `SearchIn` only appends: the result always starts with the prior
content of the accumulator. -/
theorem searchGo_append_res (t : Trie) :
    ∀ (rest : List Nat) (st : TState) (i : Nat) (res : List (Nat × Nat)),
      searchGo t st i res rest = res ++ searchGo t st i [] rest := by
  intro rest
  induction rest with
  | nil => intro st i res; simp [searchGo]
  | cons c rr ih =>
    intro st i res
    cases hl : (switchState t c st).leaf with
    | none =>
      rw [searchGo_cons_none t st i res c rr hl,
        searchGo_cons_none t st i [] c rr hl]
      exact ih (switchState t c st) (i + 1) res
    | some k0 =>
      rw [searchGo_cons_some t st i k0 res c rr hl,
        searchGo_cons_some t st i k0 [] c rr hl,
        ih _ _ (res ++ [(i + 1, k0)]), ih _ _ ([] ++ [(i + 1, k0)])]
      simp [List.append_assoc]

/-- Membership in the search output: a pair `(p, k)` is reported iff the
automaton state after the first `p` symbols is a leaf for pattern `k`. -/
theorem searchGo_mem (t : Trie) :
    ∀ (rest : List Nat) (st : TState) (i p k : Nat),
      ((p, k) ∈ searchGo t st i [] rest ↔
        ∃ j, j < rest.length ∧ p = i + j + 1 ∧
          (runFrom t st (rest.take (j + 1))).leaf = some k) := by
  intro rest
  induction rest with
  | nil =>
    intro st i p k
    simp [searchGo]
  | cons c rr ih =>
    intro st i p k
    cases hl : (switchState t c st).leaf with
    | none =>
      rw [searchGo_cons_none t st i [] c rr hl, ih]
      constructor
      · rintro ⟨j, hj, hp, hrun⟩
        refine ⟨j + 1, by rw [List.length_cons]; omega, by omega, ?_⟩
        rw [List.take_succ_cons, runFrom_cons]
        exact hrun
      · rintro ⟨j, hj, hp, hrun⟩
        cases j with
        | zero =>
          rw [List.take_succ_cons, List.take_zero] at hrun
          have hcontra : (switchState t c st).leaf = some k := hrun
          rw [hl] at hcontra
          cases hcontra
        | succ j' =>
          refine ⟨j', by rw [List.length_cons] at hj; omega, by omega, ?_⟩
          rw [List.take_succ_cons, runFrom_cons] at hrun
          exact hrun
    | some k0 =>
      rw [searchGo_cons_some t st i k0 [] c rr hl, searchGo_append_res,
        List.nil_append, List.singleton_append]
      rw [List.mem_cons, ih]
      constructor
      · rintro (heq | ⟨j, hj, hp, hrun⟩)
        · have h1 : p = i + 1 := congrArg Prod.fst heq
          have h2 : k = k0 := congrArg Prod.snd heq
          refine ⟨0, by rw [List.length_cons]; omega, by omega, ?_⟩
          rw [List.take_succ_cons, List.take_zero]
          show (switchState t c st).leaf = some k
          rw [hl, h2]
        · refine ⟨j + 1, by rw [List.length_cons]; omega, by omega, ?_⟩
          rw [List.take_succ_cons, runFrom_cons]
          exact hrun
      · rintro ⟨j, hj, hp, hrun⟩
        cases j with
        | zero =>
          left
          rw [List.take_succ_cons, List.take_zero] at hrun
          have hk : (switchState t c st).leaf = some k := hrun
          rw [hl] at hk
          injection hk with hk
          have hpp : p = i + 1 := by omega
          rw [hpp, ← hk]
        | succ j' =>
          right
          refine ⟨j', by rw [List.length_cons] at hj; omega, by omega, ?_⟩
          rw [List.take_succ_cons, runFrom_cons] at hrun
          exact hrun

/-- Positions in the search output are strictly increasing (and lie in
`(i, i + |rest|]`). -/
theorem searchGo_sorted (t : Trie) :
    ∀ (rest : List Nat) (st : TState) (i : Nat),
      List.Pairwise (fun a b => a.1 < b.1) (searchGo t st i [] rest) ∧
      (∀ x ∈ searchGo t st i [] rest, i < x.1 ∧ x.1 ≤ i + rest.length) := by
  intro rest
  induction rest with
  | nil =>
    intro st i
    exact ⟨List.Pairwise.nil, by intro x hx; simp [searchGo] at hx⟩
  | cons c rr ih =>
    intro st i
    cases hl : (switchState t c st).leaf with
    | none =>
      rw [searchGo_cons_none t st i [] c rr hl]
      obtain ⟨hs, hb⟩ := ih (switchState t c st) (i + 1)
      refine ⟨hs, ?_⟩
      intro x hx
      obtain ⟨h1, h2⟩ := hb x hx
      refine ⟨by omega, ?_⟩
      rw [List.length_cons]
      omega
    | some k0 =>
      obtain ⟨hs, hb⟩ := ih (switchState t c st) (i + 1)
      rw [searchGo_cons_some t st i k0 [] c rr hl, searchGo_append_res,
        List.nil_append, List.singleton_append]
      constructor
      · refine List.Pairwise.cons ?_ hs
        intro x hx
        exact (hb x hx).1
      · intro x hx
        rcases List.mem_cons.1 hx with rfl | hx'
        · refine ⟨by omega, ?_⟩
          rw [List.length_cons]
          omega
        · obtain ⟨h1, h2⟩ := hb x hx'
          refine ⟨by omega, ?_⟩
          rw [List.length_cons]
          omega

/-! ### Query lemmas at the level of `reset` -/

theorem mem_getD {α : Type} (l : List α) (d : α) (x : α) (h : x ∈ l) :
    ∃ k, k < l.length ∧ l.getD k d = x := by
  induction l with
  | nil => cases h
  | cons y ys ih =>
    rcases List.mem_cons.1 h with rfl | h'
    · exact ⟨0, by simp, rfl⟩
    · obtain ⟨k, hk, he⟩ := ih h'
      exact ⟨k + 1, by simp; omega, he⟩

theorem reset_pattern_mapped (words : List (List Nat)) (hok : SymsOk words)
    (w : List Nat) (hw : w ∈ words) :
    allMapped (reset words).codeMap w := by
  intro c hc
  rw [(good_reset words).cm]
  exact codeOf_buildCodeMap_mem words w c hw hc (hok w hw c hc)

/-- `HasString` accepts exactly the nonempty pattern strings. -/
theorem hasString_iff_reset (words : List (List Nat)) (hok : SymsOk words)
    (s : List Nat) :
    (hasString (reset words) s = true) ↔ (s ≠ [] ∧ s ∈ words) := by
  have hg := good_reset words
  have hwf := hg.wf
  rw [hasString, hasStringGo_iff (reset words) hwf s initState hwf.root_lt
    (by rw [initState_depth, initState_idx, hwf.root_depth])]
  constructor
  · rintro (⟨_, h⟩ | ⟨hne, ham, w, hwalk, hleaf⟩)
    · rw [initState_leaf] at h
      cases h
    · refine ⟨hne, ?_⟩
      rw [initState_idx] at hwalk
      obtain ⟨hwlt, hstrw⟩ :=
        trieWalk_sound _ hwf _ 0 w hwf.root_lt hwalk
      rw [str_zero, List.nil_append] at hstrw
      obtain ⟨k, hk⟩ := Option.isSome_iff_exists.1 hleaf
      obtain ⟨hklt, hstrk⟩ := hg.leaf_sound w k hwlt hk
      rw [hstrw, hg.cm] at hstrk
      have hinv := cmInv_buildCodeMap words
      have hmem : words.getD k [] ∈ words := getD_mem words k [] hklt
      have hs_eq : s = words.getD k [] := by
        refine encW_inj _ hinv.lb hinv.inj s _ ?_ ?_ hstrk
        · intro c hc
          rw [← hg.cm]
          exact ham c hc
        · intro c hc
          exact codeOf_buildCodeMap_mem words _ c hmem hc (hok _ hmem c hc)
      rw [hs_eq]
      exact hmem
  · rintro ⟨hne, hmem⟩
    right
    obtain ⟨k, hklt, hgetk⟩ := mem_getD words [] s hmem
    refine ⟨hne, reset_pattern_mapped words hok s hmem, ?_⟩
    obtain ⟨v, hvlt, hvstr, hvleaf⟩ := hg.leaf_complete k hklt
    refine ⟨v, ?_, hvleaf⟩
    have henc : encW (reset words).codeMap s = str (reset words) v := by
      rw [hvstr, hg.cm, hgetk]
    rw [initState_idx, henc]
    exact trieWalk_str _ hwf v hvlt

/-- `HasPrefix` accepts exactly the fully-mapped strings that follow
literal trie edges from the root. -/
theorem hasPrefix_iff_reset (words : List (List Nat)) (s : List Nat) :
    hasPrefix (reset words) s = true ↔
      (allMapped (reset words).codeMap s ∧
       ∃ w, trieWalk (reset words) 0 (encW (reset words).codeMap s) =
         some w) := by
  have hwf := (good_reset words).wf
  rw [hasPrefix, hasPrefixGo_iff (reset words) hwf s initState hwf.root_lt
    (by rw [initState_depth, initState_idx, hwf.root_depth]), initState_idx]

/-- Proper prefixes of patterns that are not themselves patterns: accepted
by `HasPrefix`, rejected by `HasString`. -/
theorem proper_prefix_query (words : List (List Nat)) (hok : SymsOk words)
    (k : Nat) (p : List Nat) (hk : k < words.length)
    (hpre : p <+: words.getD k []) (hnmem : p ∉ words) :
    hasPrefix (reset words) p = true ∧
    hasString (reset words) p = false := by
  have hg := good_reset words
  have hwf := hg.wf
  constructor
  · rw [hasPrefix_iff_reset]
    have hmemk : words.getD k [] ∈ words := getD_mem words k [] hk
    refine ⟨allMapped_of_isPrefix _ _ _ hpre
      (reset_pattern_mapped words hok _ hmemk), ?_⟩
    obtain ⟨v, hvlt, hvstr, _⟩ := hg.leaf_complete k hk
    have htrie : isTrieStr (reset words) (encW (reset words).codeMap p) := by
      apply isTrieStr_prefix_node (reset words) hwf v hvlt
      rw [hvstr, hg.cm]
      exact hpre.map _
    exact (isTrieStr_iff_walk (reset words) hwf _).1 htrie
  · rcases hhs : hasString (reset words) p with _ | _
    · rfl
    · exfalso
      obtain ⟨_, hmem⟩ := (hasString_iff_reset words hok p).1 hhs
      exact hnmem hmem

/-- Every reported match is sound: it is a real occurrence of the reported
pattern ending at the reported 1-based position. -/
theorem searchIn_sound (words : List (List Nat)) (hok : SymsOk words)
    (text : List Nat) (p k : Nat)
    (hmem : (p, k) ∈ searchIn (reset words) text []) :
    1 ≤ p ∧ p ≤ text.length ∧ k < words.length ∧
    (words.getD k []).length ≤ p ∧ words.getD k [] <:+ text.take p := by
  have hg := good_reset words
  have hwf := hg.wf
  rw [searchIn, searchGo_mem] at hmem
  obtain ⟨j, hj, hp, hrun⟩ := hmem
  rw [show p = j + 1 from by omega]
  have hrun' : (runState (reset words) (text.take (j + 1))).leaf = some k :=
    hrun
  obtain ⟨hidx, hform, ⟨w, hwsuf, hwmap, hwenc⟩, _⟩ :=
    runState_inv (reset words) hwf (text.take (j + 1))
  rcases hform with hinit | hst
  · rw [hinit, initState_leaf] at hrun'
    cases hrun'
  · rw [hst, stateOf_leaf] at hrun'
    obtain ⟨hklt, hstrk⟩ := hg.leaf_sound _ k hidx hrun'
    have hinv := cmInv_buildCodeMap words
    have hmemk : words.getD k [] ∈ words := getD_mem words k [] hklt
    have hw_eq : w = words.getD k [] := by
      refine encW_inj _ hinv.lb hinv.inj w _ ?_ ?_ ?_
      · intro c hc
        rw [← hg.cm]
        exact hwmap c hc
      · intro c hc
        exact codeOf_buildCodeMap_mem words _ c hmemk hc (hok _ hmemk c hc)
      · rw [← hg.cm, hwenc]
        rw [← hg.cm] at hstrk
        exact hstrk
    rw [hw_eq] at hwsuf
    have hlen : (words.getD k []).length ≤ (text.take (j + 1)).length :=
      hwsuf.length_le
    rw [List.length_take] at hlen
    exact ⟨by omega, by omega, hklt,
      by omega, hwsuf⟩

/-- If the text itself is a (nonempty) pattern, at least one match is
reported. -/
theorem searchIn_self (words : List (List Nat)) (hok : SymsOk words)
    (k : Nat) (hk : k < words.length) (hne : words.getD k [] ≠ []) :
    searchIn (reset words) (words.getD k []) [] ≠ [] := by
  have hg := good_reset words
  have hwf := hg.wf
  obtain ⟨v, hvlt, hvstr, hvleaf⟩ := hg.leaf_complete k hk
  obtain ⟨hidx, hform, ⟨w, hwsuf, hwmap, hwenc⟩, hmax⟩ :=
    runState_inv (reset words) hwf (words.getD k [])
  have hmemk : words.getD k [] ∈ words := getD_mem words k [] hk
  have htmapped : allMapped (reset words).codeMap (words.getD k []) :=
    reset_pattern_mapped words hok _ hmemk
  have htrie : isTrieStr (reset words)
      (encW (reset words).codeMap (words.getD k [])) :=
    ⟨v, hvlt, by rw [hvstr, hg.cm]⟩
  have h1 : encW (reset words).codeMap (words.getD k []) <:+
      str (reset words) (runState (reset words) (words.getD k [])).idx :=
    hmax _ htrie ⟨words.getD k [], List.suffix_refl _, htmapped, rfl⟩
  have h2 : str (reset words) (runState (reset words)
      (words.getD k [])).idx = encW (reset words).codeMap
        (words.getD k []) := by
    obtain ⟨s0, hs0⟩ := h1
    have l1 : w.length ≤ (words.getD k []).length := hwsuf.length_le
    have l2 : (encW (reset words).codeMap w).length = w.length := by
      simp [encW]
    have l3 : (encW (reset words).codeMap (words.getD k [])).length =
        (words.getD k []).length := by simp [encW]
    have l4 := congrArg List.length hs0
    have l5 := congrArg List.length hwenc
    rw [List.length_append] at l4
    have hs0nil : s0 = [] := List.eq_nil_of_length_eq_zero (by omega)
    rw [hs0nil, List.nil_append] at hs0
    exact hs0.symm
  have hveq : (runState (reset words) (words.getD k [])).idx = v :=
    str_inj _ hwf _ v hidx hvlt (by rw [h2, hvstr, hg.cm])
  rcases hform with hinit | hst
  · exfalso
    rw [hinit, initState_idx] at hveq
    rw [← hveq, str_zero] at hvstr
    have : words.getD k [] = [] := by
      have := hvstr.symm
      unfold encW at this
      exact List.map_eq_nil_iff.1 this
    exact hne this
  · obtain ⟨k2, hk2⟩ := Option.isSome_iff_exists.1 hvleaf
    have hleaf2 : (runState (reset words) (words.getD k [])).leaf =
        some k2 := by
      rw [hst, stateOf_leaf, hveq, hk2]
    have hlen : 0 < (words.getD k []).length := List.length_pos.2 hne
    intro hempty
    have hmm : ((0 + ((words.getD k []).length - 1) + 1, k2)) ∈
        searchIn (reset words) (words.getD k []) [] := by
      rw [searchIn, searchGo_mem]
      refine ⟨(words.getD k []).length - 1, by omega, rfl, ?_⟩
      rw [show (words.getD k []).length - 1 + 1 =
        (words.getD k []).length from by omega, List.take_length]
      exact hleaf2
    rw [hempty] at hmm
    cases hmm

theorem switchState_idx_lt (t : Trie) (hwf : WF t) (c : Nat) (st : TState)
    (h : st.idx < t.nodes.length) :
    (switchState t c st).idx < t.nodes.length := by
  by_cases hm : codeOf t.codeMap c = -1
  · rw [switchState_unmapped t c st hm, initState_idx]
    exact hwf.root_lt
  · rw [switchState_mapped t c st hm, stateOf_idx]
    exact goN_lt t hwf _ _ h

theorem reset_codeMap_length (words : List (List Nat)) :
    (reset words).codeMap.length = 256 := by
  rw [(good_reset words).cm]
  exact buildCodeMap_length words

/-! ## The claims -/

/-- C1 counterexample: with patterns `{"ab", "b"}` and text `"ab"`
(symbols 0 = a, 1 = b), pattern 1 (`"b"`) occurs as a substring ending at
position 2, yet the pair `(2, 1)` is not reported — `SearchIn` does not
report every occurrence of every pattern. -/
theorem claim1_counterexample :
    occursEndingAt [1] [0, 1] 2 ∧
    ((2, 1) : Nat × Nat) ∉ searchIn (reset [[0, 1], [1]]) [0, 1] [] := by
  decide

/-- C1 (amended): `SearchIn` reports only genuine occurrences — each
reported `(position, idx)` is a real occurrence of pattern `idx` ending at
that 1-based position — with end positions strictly increasing (hence at
most one report per end position); and in the concrete overlapping
scenario `{"abcd", "bcde", "cdef"}` on `"abcdef"` all three patterns are
reported. -/
theorem claim1_search_sound_ordered (words : List (List Nat))
    (text : List Nat) (hok : SymsOk words) :
    List.Pairwise (fun a b => a.1 < b.1) (searchIn (reset words) text []) ∧
    (∀ p k, (p, k) ∈ searchIn (reset words) text [] →
      k < words.length ∧ occursEndingAt (words.getD k []) text p) ∧
    searchIn (reset [[0, 1, 2, 3], [1, 2, 3, 4], [2, 3, 4, 5]])
      [0, 1, 2, 3, 4, 5] [] = [(4, 0), (5, 1), (6, 2)] := by
  refine ⟨(searchGo_sorted (reset words) text initState 0).1, ?_, by decide⟩
  intro p k hm
  obtain ⟨_, h2, h3, _, h5⟩ := searchIn_sound words hok text p k hm
  exact ⟨h3, h2, h5⟩

theorem claim1_witness :
    SymsOk [[0, 1], [1]] ∧
    (List.Pairwise (fun a b => a.1 < b.1)
        (searchIn (reset [[0, 1], [1]]) [0, 1] []) ∧
      (∀ p k, (p, k) ∈ searchIn (reset [[0, 1], [1]]) [0, 1] [] →
        k < [[0, 1], [1]].length ∧
        occursEndingAt ([[0, 1], [1]].getD k []) [0, 1] p) ∧
      searchIn (reset [[0, 1, 2, 3], [1, 2, 3, 4], [2, 3, 4, 5]])
        [0, 1, 2, 3, 4, 5] [] = [(4, 0), (5, 1), (6, 2)]) :=
  ⟨by decide, claim1_search_sound_ordered [[0, 1], [1]] [0, 1] (by decide)⟩

/-- C2 counterexample: with patterns `{"abc", "b"}` (symbols 0 = a, 1 = b,
2 = c) and text `"ab"`, the text contains pattern `"b"` as a substring,
yet `SearchIn` reports no match at all. -/
theorem claim2_counterexample :
    ([1] : List Nat) <:+: [0, 1] ∧
    searchIn (reset [[0, 1, 2], [1]]) [0, 1] [] = [] := by
  decide

/-- C2 (amended): every reported `(position, idx)` is sound — `position`
is a 1-based position of the text, `idx` indexes a pattern, `position` is
at least that pattern's length, and the pattern is the substring of the
text of that length ending at `position`; and when the text itself equals
a (necessarily nonempty) pattern of the set, at least one match is
reported. The original "at least one match whenever the text contains a
pattern" fails because `SearchIn` only inspects the current state's leaf
mark. -/
theorem claim2_search_sound_self (words : List (List Nat))
    (text : List Nat) (hok : SymsOk words) :
    (∀ p k, (p, k) ∈ searchIn (reset words) text [] →
      1 ≤ p ∧ p ≤ text.length ∧ k < words.length ∧
      (words.getD k []).length ≤ p ∧ words.getD k [] <:+ text.take p) ∧
    (∀ k, k < words.length → words.getD k [] = text → text ≠ [] →
      searchIn (reset words) text [] ≠ []) := by
  refine ⟨fun p k hm => searchIn_sound words hok text p k hm, ?_⟩
  intro k hk heq hne
  rw [← heq]
  exact searchIn_self words hok k hk (by rw [heq]; exact hne)

theorem claim2_witness :
    SymsOk [[7, 8]] ∧
    ((∀ p k, (p, k) ∈ searchIn (reset [[7, 8]]) [7, 8] [] →
      1 ≤ p ∧ p ≤ [7, 8].length ∧ k < [[7, 8]].length ∧
      ([[7, 8]].getD k []).length ≤ p ∧
      [[7, 8]].getD k [] <:+ [7, 8].take p) ∧
    (∀ k, k < [[7, 8]].length → [[7, 8]].getD k [] = [7, 8] →
      [7, 8] ≠ [] → searchIn (reset [[7, 8]]) [7, 8] [] ≠ [])) :=
  ⟨by decide, claim2_search_sound_self [[7, 8]] [7, 8] (by decide)⟩

/-- C3 counterexample: when the empty string is one of the patterns,
`HasString` still rejects it (the initial state's cached leaf field is
`-1`), so `has_string` is not true for *every* pattern of the set. -/
theorem claim3_counterexample :
    ([] : List Nat) ∈ [([] : List Nat)] ∧
    hasString (reset [[]]) [] = false := by
  decide

/-- C3 (amended): `has_string(s)` is true iff `s` is a *nonempty* pattern
of the set; in particular it is false for every non-pattern, including all
near-misses, and false for the empty string even when it is a pattern. -/
theorem claim3_hasString_iff (words : List (List Nat)) (hok : SymsOk words)
    (s : List Nat) :
    hasString (reset words) s = true ↔ (s ≠ [] ∧ s ∈ words) :=
  hasString_iff_reset words hok s

theorem claim3_witness :
    SymsOk [[3, 4]] ∧
    (hasString (reset [[3, 4]]) [3, 4] = true ↔
      (([3, 4] : List Nat) ≠ [] ∧ [3, 4] ∈ [[3, 4]])) :=
  ⟨by decide, claim3_hasString_iff [[3, 4]] (by decide) [3, 4]⟩

/-- C4: `GetLink` computes the failure link: the root links to the root, a
node whose parent is the root links to the root, any other node links to
`goto(link(parent(v)), parent_code(v))`, `GetLink` exposes exactly that
link index, and the linked node spells the longest proper suffix of the
node's string that is itself a prefix present in the trie. -/
theorem claim4_getLink_failure_link (words : List (List Nat)) (v p : Nat)
    (hv : v < (reset words).nodes.length) (hpos : 0 < v) :
    suffLink (reset words) 0 = 0 ∧
    ((nodeAt (reset words) v).parent = some 0 →
      suffLink (reset words) v = 0) ∧
    ((nodeAt (reset words) v).parent = some p → p ≠ 0 →
      suffLink (reset words) v =
        goN (reset words) (suffLink (reset words) p)
          ((nodeAt (reset words) v).parentCode)) ∧
    (getLink (reset words) (stateOf (reset words) v)).idx =
      suffLink (reset words) v ∧
    isLongestProperTrieSuffix (reset words) (str (reset words) v)
      (str (reset words) (suffLink (reset words) v)) := by
  have hwf := (good_reset words).wf
  refine ⟨suffLink_zero (reset words),
    fun hp => suffLink_parent_root (reset words) v hp,
    fun hp hpne => suffLink_rec (reset words) hwf v p hv hpos hp hpne,
    rfl,
    suffLink_is_longest (reset words) hwf v hpos hv⟩

theorem claim4_witness :
    2 < (reset [[0, 1], [1]]).nodes.length ∧ 0 < 2 ∧
    (suffLink (reset [[0, 1], [1]]) 0 = 0 ∧
    ((nodeAt (reset [[0, 1], [1]]) 2).parent = some 0 →
      suffLink (reset [[0, 1], [1]]) 2 = 0) ∧
    ((nodeAt (reset [[0, 1], [1]]) 2).parent = some 1 → 1 ≠ 0 →
      suffLink (reset [[0, 1], [1]]) 2 =
        goN (reset [[0, 1], [1]]) (suffLink (reset [[0, 1], [1]]) 1)
          ((nodeAt (reset [[0, 1], [1]]) 2).parentCode)) ∧
    (getLink (reset [[0, 1], [1]])
        (stateOf (reset [[0, 1], [1]]) 2)).idx =
      suffLink (reset [[0, 1], [1]]) 2 ∧
    isLongestProperTrieSuffix (reset [[0, 1], [1]])
      (str (reset [[0, 1], [1]]) 2)
      (str (reset [[0, 1], [1]]) (suffLink (reset [[0, 1], [1]]) 2))) :=
  ⟨by decide, by decide,
    claim4_getLink_failure_link [[0, 1], [1]] 2 1 (by decide) (by decide)⟩

/-- C5: termination of the mutually recursive lazy resolution: the suffix
link strictly decreases depth toward the root, both fuel-indexed resolvers
are independent of the fuel once it is large enough (so `GetLink` and
`SwitchStateCode` are total functions of their arguments), and the total
functions satisfy the recursive equations of the source. -/
theorem claim5_resolvers_total (words : List (List Nat)) (v c f : Nat)
    (hv : v < (reset words).nodes.length) :
    (0 < v → (nodeAt (reset words) (suffLink (reset words) v)).depth <
      (nodeAt (reset words) v).depth) ∧
    (2 * (reset words).nodes.length ≤ f →
      suffLinkFuel (reset words) f v = suffLink (reset words) v) ∧
    (2 * (reset words).nodes.length + 1 ≤ f →
      goFuel (reset words) f v c = goN (reset words) v c) ∧
    (suffLink (reset words) v =
      if v = 0 ∨ (nodeAt (reset words) v).parent = some 0 then 0
      else goN (reset words)
        (suffLink (reset words) ((nodeAt (reset words) v).parent.getD 0))
        ((nodeAt (reset words) v).parentCode)) ∧
    (goN (reset words) v c =
      match findEdge (reset words).edges v c with
      | some w => w
      | none => if v = 0 then 0
          else goN (reset words) (suffLink (reset words) v) c) := by
  have hwf := (good_reset words).wf
  have hdle : (nodeAt (reset words) v).depth ≤ v := wf_depth_le _ hwf v hv
  refine ⟨fun hpos => depth_suffLink_lt _ hwf v hpos hv,
    fun hf => suffLinkFuel_eq _ hwf v f hv (by omega),
    fun hf => goFuel_eq _ hwf v c f hv (by omega), ?_, ?_⟩
  · by_cases h0 : v = 0 ∨ (nodeAt (reset words) v).parent = some 0
    · rw [if_pos h0]
      rcases h0 with rfl | hp
      · exact suffLink_zero (reset words)
      · exact suffLink_parent_root (reset words) v hp
    · rw [if_neg h0]
      push_neg at h0
      obtain ⟨hvne, hpne⟩ := h0
      obtain ⟨p, hp, _, _, _⟩ :=
        hwf.parent_spec v (Nat.pos_of_ne_zero hvne) hv
      have hpne0 : p ≠ 0 := by
        intro h
        rw [h] at hp
        exact hpne hp
      rw [hp, Option.getD_some]
      exact suffLink_rec _ hwf v p hv (Nat.pos_of_ne_zero hvne) hp hpne0
  · rcases hedge : findEdge (reset words).edges v c with _ | w
    · rcases Nat.eq_zero_or_pos v with rfl | hpos
      · rw [if_pos rfl]
        exact goN_root_none _ c hedge
      · rw [if_neg (by omega)]
        exact goN_none _ hwf v c hv (by omega) hedge
    · exact goN_edge _ v c w hedge

theorem claim5_witness :
    1 < (reset [[0, 1]]).nodes.length ∧
    ((0 < 1 → (nodeAt (reset [[0, 1]])
        (suffLink (reset [[0, 1]]) 1)).depth <
      (nodeAt (reset [[0, 1]]) 1).depth) ∧
    (2 * (reset [[0, 1]]).nodes.length ≤ 9 →
      suffLinkFuel (reset [[0, 1]]) 9 1 = suffLink (reset [[0, 1]]) 1) ∧
    (2 * (reset [[0, 1]]).nodes.length + 1 ≤ 9 →
      goFuel (reset [[0, 1]]) 9 1 0 = goN (reset [[0, 1]]) 1 0) ∧
    (suffLink (reset [[0, 1]]) 1 =
      if 1 = 0 ∨ (nodeAt (reset [[0, 1]]) 1).parent = some 0 then 0
      else goN (reset [[0, 1]])
        (suffLink (reset [[0, 1]])
          ((nodeAt (reset [[0, 1]]) 1).parent.getD 0))
        ((nodeAt (reset [[0, 1]]) 1).parentCode)) ∧
    (goN (reset [[0, 1]]) 1 0 =
      match findEdge (reset [[0, 1]]).edges 1 0 with
      | some w => w
      | none => if 1 = 0 then 0
          else goN (reset [[0, 1]]) (suffLink (reset [[0, 1]]) 1) 0)) :=
  ⟨by decide, claim5_resolvers_total [[0, 1]] 1 0 9 (by decide)⟩

/-- C6: `SwitchState` always yields a defined successor state (a valid
node index); a symbol occurring in no pattern resets any state to the
initial root state; and a code with no literal edge from the root loops
the root to itself. -/
theorem claim6_switchState_total (words : List (List Nat)) (c code : Nat)
    (st : TState) (hst : st.idx < (reset words).nodes.length) :
    (switchState (reset words) c st).idx < (reset words).nodes.length ∧
    ((∀ w ∈ words, c ∉ w) → switchState (reset words) c st = initState) ∧
    (findEdge (reset words).edges 0 code = none →
      goN (reset words) 0 code = 0) := by
  have hg := good_reset words
  refine ⟨switchState_idx_lt (reset words) hg.wf c st hst, ?_,
    fun h => goN_root_none (reset words) code h⟩
  intro hnot
  apply switchState_unmapped
  rw [hg.cm]
  exact codeOf_buildCodeMap_not_mem words c hnot

theorem claim6_witness :
    (0 : Nat) < (reset [[0, 1]]).nodes.length ∧
    ((switchState (reset [[0, 1]]) 77 initState).idx <
      (reset [[0, 1]]).nodes.length ∧
    ((∀ w ∈ [[0, 1]], 77 ∉ w) →
      switchState (reset [[0, 1]]) 77 initState = initState) ∧
    (findEdge (reset [[0, 1]]).edges 0 5 = none →
      goN (reset [[0, 1]]) 0 5 = 0)) := by
  refine ⟨by decide, ?_⟩
  show (switchState (reset [[0, 1]]) 77 initState).idx <
      (reset [[0, 1]]).nodes.length ∧ _
  exact claim6_switchState_total [[0, 1]] 77 5 initState (by decide)

/-- C7: every proper prefix of a pattern that is not itself a pattern is
accepted by `HasPrefix` and rejected by `HasString`; and `HasPrefix`
succeeds exactly when the whole string is consumed through literal trie
edges from the root (all symbols mapped and the coded string walkable),
with no leaf requirement. -/
theorem claim7_prefix_walk (words : List (List Nat)) (hok : SymsOk words)
    (k : Nat) (p : List Nat) (hk : k < words.length)
    (hpre : p <+: words.getD k []) (_hproper : p ≠ words.getD k [])
    (hnmem : p ∉ words) :
    hasPrefix (reset words) p = true ∧
    hasString (reset words) p = false ∧
    (∀ s, hasPrefix (reset words) s = true ↔
      (allMapped (reset words).codeMap s ∧
       ∃ w, trieWalk (reset words) 0 (encW (reset words).codeMap s) =
         some w)) := by
  obtain ⟨h1, h2⟩ := proper_prefix_query words hok k p hk hpre hnmem
  exact ⟨h1, h2, fun s => hasPrefix_iff_reset words s⟩

theorem claim7_witness :
    SymsOk [[0, 1, 2, 3], [1, 2, 3, 4], [2, 3, 4, 5]] ∧
    0 < [[0, 1, 2, 3], [1, 2, 3, 4], [2, 3, 4, 5]].length ∧
    ([0, 1, 2] : List Nat) <+:
      [[0, 1, 2, 3], [1, 2, 3, 4], [2, 3, 4, 5]].getD 0 [] ∧
    ([0, 1, 2] : List Nat) ≠
      [[0, 1, 2, 3], [1, 2, 3, 4], [2, 3, 4, 5]].getD 0 [] ∧
    ([0, 1, 2] : List Nat) ∉ [[0, 1, 2, 3], [1, 2, 3, 4], [2, 3, 4, 5]] ∧
    (hasPrefix (reset [[0, 1, 2, 3], [1, 2, 3, 4], [2, 3, 4, 5]])
        [0, 1, 2] = true ∧
      hasString (reset [[0, 1, 2, 3], [1, 2, 3, 4], [2, 3, 4, 5]])
        [0, 1, 2] = false ∧
      (∀ s, hasPrefix (reset [[0, 1, 2, 3], [1, 2, 3, 4], [2, 3, 4, 5]])
          s = true ↔
        (allMapped (reset [[0, 1, 2, 3], [1, 2, 3, 4],
            [2, 3, 4, 5]]).codeMap s ∧
         ∃ w, trieWalk (reset [[0, 1, 2, 3], [1, 2, 3, 4], [2, 3, 4, 5]])
            0 (encW (reset [[0, 1, 2, 3], [1, 2, 3, 4],
              [2, 3, 4, 5]]).codeMap s) = some w))) :=
  ⟨by decide, by decide, by decide, by decide, by decide,
    claim7_prefix_walk [[0, 1, 2, 3], [1, 2, 3, 4], [2, 3, 4, 5]]
      (by decide) 0 [0, 1, 2] (by decide) (by decide) (by decide)
      (by decide)⟩

/-- C8: the code map built by `Reset` is the full 256-entry array, so for
every byte-valued symbol (0–255) the lookup `CodeMap[c]` hits a valid
entry — the out-of-bounds case is unreachable for byte symbols. -/
theorem claim8_codeMap_access (words : List (List Nat)) (c : Nat)
    (hc : c < 256) :
    (reset words).codeMap.length = 256 ∧
    c < (reset words).codeMap.length ∧
    (reset words).codeMap.get? c ≠ none := by
  refine ⟨reset_codeMap_length words, ?_, ?_⟩
  · rw [reset_codeMap_length]
    exact hc
  · intro h
    rw [List.get?_eq_none] at h
    rw [reset_codeMap_length] at h
    omega

theorem claim8_witness :
    (255 : Nat) < 256 ∧
    ((reset [[0]]).codeMap.length = 256 ∧
      255 < (reset [[0]]).codeMap.length ∧
      (reset [[0]]).codeMap.get? 255 ≠ none) :=
  ⟨by decide, claim8_codeMap_access [[0]] 255 (by decide)⟩

/-- C9 counterexample: for the single pattern `"a"`, the suffix link of
node 1 is the root (depth 0), but the state returned by `GetLink` carries
depth 1 — the *queried* node's depth, not the target's. -/
theorem claim9_counterexample :
    (getLink (reset [[0]]) (stateOf (reset [[0]]) 1)).depth ≠
      (nodeAt (reset [[0]])
        ((getLink (reset [[0]]) (stateOf (reset [[0]]) 1)).idx)).depth := by
  decide

/-- C9 (amended): the state returned by `GetLink` references the node's
suffix-link target (a valid node) and carries the target's leaf mark, but
it exposes the *queried* node's depth, not the target node's depth. -/
theorem claim9_getLink_fields (words : List (List Nat)) (v : Nat)
    (hv : v < (reset words).nodes.length) :
    (getLink (reset words) (stateOf (reset words) v)).idx =
      suffLink (reset words) v ∧
    (getLink (reset words) (stateOf (reset words) v)).idx <
      (reset words).nodes.length ∧
    (getLink (reset words) (stateOf (reset words) v)).depth =
      (nodeAt (reset words) v).depth ∧
    (getLink (reset words) (stateOf (reset words) v)).leaf =
      (nodeAt (reset words) (suffLink (reset words) v)).isLeaf :=
  ⟨rfl, suffLink_lt (reset words) (good_reset words).wf v hv, rfl, rfl⟩

theorem claim9_witness :
    1 < (reset [[0]]).nodes.length ∧
    ((getLink (reset [[0]]) (stateOf (reset [[0]]) 1)).idx =
      suffLink (reset [[0]]) 1 ∧
    (getLink (reset [[0]]) (stateOf (reset [[0]]) 1)).idx <
      (reset [[0]]).nodes.length ∧
    (getLink (reset [[0]]) (stateOf (reset [[0]]) 1)).depth =
      (nodeAt (reset [[0]]) 1).depth ∧
    (getLink (reset [[0]]) (stateOf (reset [[0]]) 1)).leaf =
      (nodeAt (reset [[0]]) (suffLink (reset [[0]]) 1)).isLeaf) :=
  ⟨by decide, claim9_getLink_fields [[0]] 1 (by decide)⟩

/-- C10: `SearchIn` only appends to the caller-supplied result vector: the
output is exactly the prior content, unchanged and in order, followed by
the matches of this call. -/
theorem claim10_searchIn_appends (t : Trie) (s : List Nat)
    (res : List (Nat × Nat)) :
    searchIn t s res = res ++ searchIn t s [] :=
  searchGo_append_res t s initState 0 res

end AhoCorasick
